import Mathlib

/-!
Verification development for the placeholder-filling document service in `app.py`.

A document is modelled by its logical tree of paragraphs and runs: a run is a
text span (`Str`), a paragraph is its ordered list of runs, and a document holds
its top-level paragraphs plus tables (tables → rows → cells → paragraphs),
mirroring `iter_paragraphs`.  All text is modelled as `List Char`, and the
Python/`re` primitives used by the source (`str.strip`, `str.replace`,
`str.splitlines`, `re.search`/`finditer`/`sub` for the four fixed patterns of
the source) are embedded as executable Lean functions below, each one a direct
transcription of the corresponding CPython/`re` behaviour on the source's
pattern.  In-place mutation of the parsed document in the source is rendered as
explicit state passing; recursion over text uses an explicit fuel argument equal
to the text length so every definition is structurally recursive and kernel
evaluable.
-/

/-- Text is modelled as a list of characters. -/
abbrev Str := List Char

/-- Coerce a Lean string literal to the character-list model. -/
def cs (s : String) : Str := s.data

/-- Python's `\s` class / `str.strip()` whitespace on ASCII:
space, tab, newline, carriage return, vertical tab, form feed. -/
def isPySpace (c : Char) : Bool :=
  c == ' ' || c == '\t' || c == '\n' || c == '\r' || c == '\x0b' || c == '\x0c'

/-- Drop matching characters from the right end of a list. -/
def dropRightWhile (p : Char → Bool) (s : Str) : Str :=
  (s.reverse.dropWhile p).reverse

/-- Python `str.strip()`: remove whitespace from both ends. -/
def pyStrip (s : Str) : Str :=
  dropRightWhile isPySpace (s.dropWhile isPySpace)

/-- Python `str.strip(chars)` for a single strip character, e.g. `.strip(":")`
or `.strip("_")`: remove every copy of that character from both ends. -/
def pyStripChar (c : Char) (s : Str) : Str :=
  dropRightWhile (· == c) (s.dropWhile (· == c))

/-- Python `str.upper()` (ASCII range; the source only uppercases ASCII
marker/field text).  `Char.toUpper` is exactly the ASCII case map. -/
def pyUpper (s : Str) : Str := s.map Char.toUpper

/-- Python `str.lower()` (ASCII range), used to model `re.IGNORECASE`
comparisons and the `key=lambda s: s.lower()` sort key. -/
def pyLower (s : Str) : Str := s.map Char.toLower

/-- `a` is a prefix of `b` (Python `str.startswith`, also the anchored-match
primitive of the replacement scanner). -/
def leadsWith : Str → Str → Bool
  | [], _ => true
  | _ :: _, [] => false
  | a :: as, b :: bs => a == b && leadsWith as bs

/-- Python `str.splitlines()` restricted to the line boundaries that can occur
in this service's text values: `\n`, `\r\n`, `\r` (plus `\v`, `\f` which Python
also splits on).  Returns `[]` on empty input, like Python. -/
def pySplitlines : Str → List Str
  | [] => []
  | '\r' :: '\n' :: rest =>
    match pySplitlines rest with
    | [] => [[]]
    | ls => [] :: ls
  | c :: rest =>
    if c == '\n' || c == '\r' || c == '\x0b' || c == '\x0c' then
      match pySplitlines rest with
      | [] => [[]]
      | ls => [] :: ls
    else
      match pySplitlines rest with
      | [] => [[c]]
      | l :: ls => (c :: l) :: ls

/-- `str(value).splitlines() or [""]` from the signature-fill pass: an empty
value yields one empty line. -/
def pySplitlinesOr (s : Str) : List Str :=
  match pySplitlines s with
  | [] => [[]]
  | ls => ls

/-- Python `str.split()` with no argument: split on whitespace runs, dropping
empty pieces. -/
def pySplitWS : Str → List Str
  | [] => []
  | c :: rest =>
    if isPySpace c then pySplitWS rest
    else
      match pySplitWS rest with
      | [] => [[c]]
      | l :: ls =>
        match rest with
        | [] => [[c]]
        | d :: _ => if isPySpace d then [c] :: l :: ls else (c :: l) :: ls

/-- `sep.join(xs)`. -/
def joinWith (sep : Str) : List Str → Str
  | [] => []
  | [x] => x
  | x :: xs => x ++ sep ++ joinWith sep xs

/-- Python's `str.replace(needle, val)` (all non-overlapping occurrences, left
to right), with fuel for structural recursion; the wrapper below supplies
sufficient fuel.  An empty needle never occurs in the source. -/
def pyReplaceAux : Nat → Str → Str → Str → Str
  | 0, s, _, _ => s
  | _ + 1, [], _, _ => []
  | fuel + 1, c :: rest, needle, v =>
    if needle = [] then c :: rest
    else if leadsWith needle (c :: rest) then
      v ++ pyReplaceAux fuel ((c :: rest).drop needle.length) needle v
    else
      c :: pyReplaceAux fuel rest needle v

/-- Python `str.replace`. -/
def pyReplace (s needle v : Str) : Str :=
  pyReplaceAux (s.length + 1) s needle v

/-- The last `n` characters of `s`: Python `s[-n:]` (for `n ≥ 1`). -/
def takeRight (n : Nat) (s : Str) : Str := s.drop (s.length - n)

/-- The last `n` elements of a list: Python `xs[-n:]`. -/
def lastN {α : Type} (n : Nat) (l : List α) : List α := l.drop (l.length - n)

/-- Decimal digits of `n`, most significant first, as characters (the model of
Python `str(k)` / f-string interpolation of a nonnegative integer). -/
def natDecAux : Nat → Nat → Str
  | 0, _ => []
  | _ + 1, 0 => []
  | fuel + 1, n + 1 =>
    natDecAux fuel ((n + 1) / 10) ++ [Char.ofNat (48 + (n + 1) % 10)]

/-- Decimal representation of a natural number. -/
def natToDec (n : Nat) : Str :=
  if n = 0 then ['0'] else natDecAux n n

/-- ASCII letter test, the `[A-Za-z]` class. -/
def isAsciiLetter (c : Char) : Bool :=
  (65 ≤ c.toNat && c.toNat ≤ 90) || (97 ≤ c.toNat && c.toNat ≤ 122)

/-- ASCII alphanumeric, the `[A-Za-z0-9]` class. -/
def isAsciiAlnum (c : Char) : Bool :=
  isAsciiLetter c || (48 ≤ c.toNat && c.toNat ≤ 57)

/-- Lexicographic comparison of character lists (Python `str` ordering by code
point), used for the named-key sort. -/
def lexLe : Str → Str → Bool
  | [], _ => true
  | _ :: _, [] => false
  | a :: as, b :: bs =>
    if a < b then true
    else if a == b then lexLe as bs
    else false

/-- Stable insertion into a sorted list: an element goes before the first
element it compares `le` to, so earlier elements stay before equal later
ones. -/
def insertOrd (le : Str → Str → Bool) (x : Str) : List Str → List Str
  | [] => [x]
  | y :: ys => if le x y then x :: y :: ys else y :: insertOrd le x ys

/-- Stable insertion sort (the model of Python's stable `sorted`). -/
def sortStable (le : Str → Str → Bool) : List Str → List Str
  | [] => []
  | x :: xs => insertOrd le x (sortStable le xs)

/-!
### The four `re` patterns of the source

`BRACKETED_NAMED`, `BRACKETED_UNDERSCORES`, `QUOTED_TERM` and the two inline
patterns (`\(\s*the\s+["“]([^"”]+)` and `^(By|Name|Title|Address|Email):\s*$`)
contain no ambiguous backtracking: each character class is disjoint from its
neighbour, so Python's leftmost/greedy matching reduces to the deterministic
parsers below.  Scanning (`search`/`finditer`/`sub`) tries each start position
left to right and, after a match, resumes at the match end.
-/

/-- Anchored match of `BRACKETED_UNDERSCORES = \[\s*_{2,}\s*\]` at the head of
`s`; on success returns the remainder of `s` after the match. -/
def tryUS : Str → Option Str
  | [] => none
  | c :: s1 =>
    if c = '[' then
      let s2 := s1.dropWhile isPySpace
      let us := s2.takeWhile (· == '_')
      let s3 := s2.dropWhile (· == '_')
      if 2 ≤ us.length then
        match s3.dropWhile isPySpace with
        | ']' :: rem => some rem
        | _ => none
      else none
    else none

/-- `sequential_replace_underscores` (app.py 115-118): `re.sub` over the
underscore pattern where each match pops the next queued value (or the empty
string once the queue is exhausted).  Returns the rewritten text and the
remaining queue; fuel-structural, wrapper below. -/
def seqReplAux : Nat → Str → List Str → Str × List Str
  | 0, s, q => (s, q)
  | _ + 1, [], q => ([], q)
  | fuel + 1, c :: rest, q =>
    match tryUS (c :: rest) with
    | some rem =>
      let v := match q with | [] => [] | x :: _ => x
      let r := seqReplAux fuel rem q.tail
      (v ++ r.1, r.2)
    | none =>
      let r := seqReplAux fuel rest q
      (c :: r.1, r.2)

/-- `sequential_replace_underscores`, also returning the queue state that the
mutable `under_values` list carries across paragraphs. -/
def sequentialReplaceUnderscores (s : Str) (q : List Str) : Str × List Str :=
  seqReplAux (s.length + 1) s q

/-- `BRACKETED_UNDERSCORES.search(text)` viewed as a Boolean test (the guard at
app.py 135). -/
def usHas : Str → Bool
  | [] => false
  | c :: rest => (tryUS (c :: rest)).isSome || usHas rest

/-- One step of `BRACKETED_UNDERSCORES.finditer` context extraction
(app.py 58-61): for each match record `text[max(0,start-160):start]` and
`text[end:end+160]`.  `pre` is the text before the current scan position. -/
def usCtxAux : Nat → Str → Str → List (Str × Str)
  | 0, _, _ => []
  | _ + 1, _, [] => []
  | fuel + 1, pre, c :: rest =>
    match tryUS (c :: rest) with
    | some rem =>
      (takeRight 160 pre, rem.take 160) ::
        usCtxAux fuel (pre ++ (c :: rest).take ((c :: rest).length - rem.length)) rem
    | none => usCtxAux fuel (pre ++ [c]) rest

/-- The `(before, after)` context pairs of all underscore matches, in document
order. -/
def usContexts (txt : Str) : List (Str × Str) :=
  usCtxAux (txt.length + 1) [] txt

/-- Characters of the named-placeholder body class `[A-Za-z0-9 _.\-]`. -/
def isNamedCh (c : Char) : Bool :=
  isAsciiAlnum c || c == ' ' || c == '_' || c == '.' || c == '-'

/-- Anchored match of
`BRACKETED_NAMED = \[\s*([A-Za-z0-9][A-Za-z0-9 _.\-]{0,120})\s*\]` at the head
of `s`; on success returns the captured group (greedy, up to 121 characters)
and the remainder after the `]`.  Characters the greedy group gives back are
spaces, which `\s*` consumes identically, so only the maximal group needs to
be tried; a longer run whose overflow is not all spaces can never reach `]`. -/
def tryNamed : Str → Option (Str × Str)
  | [] => none
  | c :: s1 =>
    if c = '[' then
      match s1.dropWhile isPySpace with
      | [] => none
      | d :: s3 =>
        if isAsciiAlnum d then
          let run := s3.takeWhile isNamedCh
          let grp := d :: run.take 120
          let overflow := run.drop 120
          let rest := s3.dropWhile isNamedCh
          if overflow.all (· == ' ') then
            match rest.dropWhile isPySpace with
            | ']' :: rem => some (grp, rem)
            | _ => none
          else none
        else none
    else none

/-- `BRACKETED_NAMED.finditer`: the raw captured groups, in text order. -/
def namedFindAux : Nat → Str → List Str
  | 0, _ => []
  | _ + 1, [] => []
  | fuel + 1, c :: rest =>
    match tryNamed (c :: rest) with
    | some (grp, rem) => grp :: namedFindAux fuel rem
    | none => namedFindAux fuel rest

/-- Anchored match of the rule-(a) pattern `\(\s*the\s+["“]([^"”]+)` (with
`re.IGNORECASE`) at the head of `s`; returns the captured group. -/
def tryTheParen : Str → Option Str
  | [] => none
  | c :: s1 =>
    if c = '(' then
      match s1.dropWhile isPySpace with
      | t :: h :: e :: s3 =>
        if t.toLower = 't' ∧ h.toLower = 'h' ∧ e.toLower = 'e' then
          match s3 with
          | [] => none
          | w :: s4 =>
            if isPySpace w then
              match s4.dropWhile isPySpace with
              | q :: s6 =>
                if q = '“' ∨ q = '"' then
                  let g := s6.takeWhile (fun d => !(d == '”' || d == '"'))
                  if g.isEmpty then none else some g
                else none
              | [] => none
            else none
        else none
      | _ => none
    else none

/-- `re.search` for the rule-(a) pattern over `after`. -/
def theParenSearchFn : Str → Option Str
  | [] => none
  | c :: rest =>
    match tryTheParen (c :: rest) with
    | some g => some g
    | none => theParenSearchFn rest

/-- `QUOTED_TERM.search = re.search([“"]([^”"]+)[”"], s)`: first (leftmost)
quoted phrase; the greedy body stops at the first closing-class character,
which must exist for the match to succeed. -/
def quotedSearchFn : Str → Option Str
  | [] => none
  | c :: rest =>
    if c = '“' ∨ c = '"' then
      let g := rest.takeWhile (fun d => !(d == '”' || d == '"'))
      match rest.dropWhile (fun d => !(d == '”' || d == '"')) with
      | _ :: _ => if g.isEmpty then quotedSearchFn rest else some g
      | [] => quotedSearchFn rest
    else quotedSearchFn rest

/-- Token class `[A-Za-z\-]` of the trailing-words heuristic. -/
def isTokCh (c : Char) : Bool := isAsciiLetter c || c == '-'

/-- `re.findall(r"[A-Za-z][A-Za-z\-]+", s)`: maximal letter/hyphen tokens of
length at least 2 starting with a letter. -/
def tokensAux : Nat → Str → List Str
  | 0, _ => []
  | _ + 1, [] => []
  | fuel + 1, c :: rest =>
    if isAsciiLetter c then
      let run := rest.takeWhile isTokCh
      if run.isEmpty then tokensAux fuel rest
      else (c :: run) :: tokensAux fuel (rest.dropWhile isTokCh)
    else tokensAux fuel rest

/-- All `[A-Za-z][A-Za-z\-]+` tokens of `s`. -/
def tokensFind (s : Str) : List Str := tokensAux (s.length + 1) s

/-!
### Document model and detectors (app.py 19-113)
-/

/-- A paragraph is its ordered list of runs; each run carries its text. -/
abbrev Para := List Str

/-- The logical tree of a parsed `.docx`: top-level paragraphs, then tables
(rows → cells → paragraphs), as traversed by `iter_paragraphs`. -/
structure Docx where
  paragraphs : List Para
  tables : List (List (List (List Para)))

/-- A paragraph's plain text: concatenation of its runs (`p.text`). -/
def paraText (p : Para) : Str := p.flatten

/-- `iter_paragraphs` (app.py 19-26): document order is top-level paragraphs
first, then each table's rows, cells and cell paragraphs in nested order. -/
def iterParagraphs (d : Docx) : List Para :=
  d.paragraphs ++ d.tables.flatten.flatten.flatten

/-- `get_full_text` (app.py 28-32): newline-joined paragraph texts in document
order. -/
def getFullText (d : Docx) : Str :=
  joinWith ['\n'] ((iterParagraphs d).map paraText)

/-- First-occurrence deduplication with an explicit seen accumulator; models
the `set` used by `detect_named_placeholders` and serves as the spec-side
description of `merge_unique` ("remove duplicates keeping first occurrence"). -/
def dedupSeen (seen : List Str) : List Str → List Str
  | [] => []
  | a :: l => if a ∈ seen then dedupSeen seen l else a :: dedupSeen (a :: seen) l

/-- `detect_named_placeholders` (app.py 34-40): normalize each captured group
by whitespace-collapsing, reject keys that are empty or all underscores, and
return the distinct keys sorted case-insensitively.  (CPython iterates the
`set` in an unspecified order before the stable sort; the model fixes
first-occurrence order, which only affects ties between case variants.) -/
def detectNamedPlaceholders (txt : Str) : List Str :=
  let raws := namedFindAux (txt.length + 1) txt
  let keys := raws.map (fun g => joinWith [' '] (pySplitWS g))
  let keys := keys.filter
    (fun k => !(pyStripChar '_' k).isEmpty && !(k.all (· == '_')))
  sortStable (fun a b => lexLe (pyLower a) (pyLower b)) (dedupSeen [] keys)

/-- `label_from_context` (app.py 42-54): rule (a) the `(the "X"` pattern in
`after`; rule (b) the first quoted phrase in the last 120 characters of
`before`; rule (c) the last up-to-3 trailing-word tokens of the last 60
characters if the joined guess has length at least 3; else no label. -/
def labelFromContext (before after : Str) : Option Str :=
  match theParenSearchFn after with
  | some g => some (pyStrip g)
  | none =>
    match quotedSearchFn (takeRight 120 before) with
    | some g => some (pyStrip g)
    | none =>
      match tokensFind (takeRight 60 before) with
      | [] => none
      | t :: ts =>
        let guess := pyStrip (joinWith [' '] (lastN 3 (t :: ts)))
        if 3 ≤ guess.length then some guess else none

/-- The collision suffix `f"{base} ({k})"` of the underscore detector. -/
def suffixed (base : Str) (k : Nat) : Str :=
  base ++ (' ' :: '(' :: natToDec k ++ [')'])

/-- The `while label in res` loop (app.py 66-69): starting from `k`, find the
first suffix index whose label is not yet in `res`, trying `cnt` candidates. -/
def searchK (res : List Str) (base : Str) : Nat → Nat → Option Nat
  | 0, _ => none
  | cnt + 1, k =>
    if suffixed base k ∈ res then searchK res base cnt (k + 1) else some k

/-- Collision resolution of the underscore detector: keep `base` if fresh, else
append `" (k)"` with `k = 2, 3, ...` until unique.  `res.length + 1` candidates
always suffice (they are pairwise distinct); the `none` fallback is dead code,
proved unreachable below. -/
def resolveColl (res : List Str) (base : Str) : Str :=
  if base ∈ res then
    match searchK res base (res.length + 1) 2 with
    | some k => suffixed base k
    | none => base
  else base

/-- The fallback label `f"Blank {len(res)+1}"`. -/
def blankLabel (res : List Str) : Str :=
  cs "Blank " ++ natToDec (res.length + 1)

/-- One match step of `detect_underscore_placeholders_with_context`
(app.py 56-71): infer a label from context (a falsy label, i.e. `None` or the
empty string, falls back to `Blank n`), resolve collisions, append. -/
def usDetectStep (res : List Str) (ba : Str × Str) : List Str :=
  let lab :=
    match labelFromContext ba.1 ba.2 with
    | some l => if l.isEmpty then blankLabel res else l
    | none => blankLabel res
  res ++ [resolveColl res lab]

/-- `detect_underscore_placeholders_with_context` (app.py 56-71). -/
def detectUnderscorePlaceholdersWithContext (txt : Str) : List Str :=
  (usContexts txt).foldl usDetectStep []

/-- The five signature field words, in the alternation order of
`^(By|Name|Title|Address|Email):\s*$`. -/
def sigFields : List Str :=
  [cs "By", cs "Name", cs "Title", cs "Address", cs "Email"]

/-- `re.match(r"^(By|Name|Title|Address|Email):\s*$", t, re.IGNORECASE)` on
already-stripped `t`, returning `m.group(1).capitalize()`: since `t` is
stripped, the trailing `\s*` is empty and `t` must equal a field word plus a
mandatory colon, case-insensitively; capitalizing the matched group yields the
canonical field word. -/
def sigFieldMatch (t : Str) : Option Str :=
  sigFields.find? (fun f => pyLower t == pyLower f ++ [':'])

/-- Party-marker test shared by detection (app.py 78-82) and the fill pass
(app.py 153-157): on `t.upper().strip(":")` of the stripped paragraph text,
`[COMPANY]`/`COMPANY` marks Company and an `INVESTOR` prefix marks Investor. -/
def markerParty (t : Str) : Option Str :=
  let tU := pyStripChar ':' (pyUpper t)
  if tU = cs "[COMPANY]" ∨ tU = cs "COMPANY" then some (cs "Company")
  else if leadsWith (cs "INVESTOR") tU then some (cs "Investor")
  else none

/-- One paragraph of the `detect_signature_keys` scan (app.py 73-89): state is
the current party and the keys emitted so far; marker paragraphs set the party
and emit nothing; a field-label paragraph with a current party emits
`"{party} {Field}"` unless already present. -/
def sigScanStep (st : Option Str × List Str) (p : Para) : Option Str × List Str :=
  let t := pyStrip (paraText p)
  match markerParty t with
  | some pty => (some pty, st.2)
  | none =>
    match sigFieldMatch t, st.1 with
    | some f, some party =>
      let key := party ++ ' ' :: f
      (st.1, if key ∈ st.2 then st.2 else st.2 ++ [key])
    | _, _ => st

/-- `detect_signature_keys` (app.py 73-89). -/
def detectSignatureKeys (d : Docx) : List Str :=
  ((iterParagraphs d).foldl sigScanStep (none, [])).2

/-- `merge_unique` (app.py 91-97): fold all lists through a `seen` set and an
output list, appending each item not yet seen. -/
def mergeUnique (lists : List (List Str)) : List Str :=
  (lists.foldl
    (fun st lst => lst.foldl
      (fun st2 item =>
        if item ∈ st2.1 then st2 else (item :: st2.1, st2.2 ++ [item])) st)
    (([] : List Str), ([] : List Str))).2

/-!
### Session state and the replacement engine (app.py 99-194, 244-268)
-/

/-- A session (app.py 99-113): the original parsed document (standing for the
stored immutable bytes, re-parsed fresh on every render), the three detector
outputs, the merged key list and the mutable answers map (an insertion-ordered
dict, modelled as an association list). -/
structure Session where
  original : Docx
  named_keys : List Str
  underscore_keys : List Str
  signature_keys : List Str
  all_keys : List Str
  answers : List (Str × Str)

/-- Dict lookup `d.get(k)`. -/
def lookupA (m : List (Str × Str)) (k : Str) : Option Str :=
  (m.find? (fun e => e.1 == k)).map (·.2)

/-- Dict store `d[k] = v`: update in place if the key exists, else append
(insertion order preserved, as for a Python dict). -/
def dictInsert (m : List (Str × Str)) (k v : Str) : List (Str × Str) :=
  if (m.find? (fun e => e.1 == k)).isSome then
    m.map (fun e => if e.1 == k then (k, v) else e)
  else m ++ [(k, v)]

/-- `build_sessions_for_doc` (app.py 99-113). -/
def buildSessionsForDoc (d : Docx) : Session :=
  let txt := getFullText d
  let named := detectNamedPlaceholders txt
  let underscore := detectUnderscorePlaceholdersWithContext txt
  let sigKeys := detectSignatureKeys d
  { original := d
    named_keys := named
    underscore_keys := underscore
    signature_keys := sigKeys
    all_keys := mergeUnique [named, underscore, sigKeys]
    answers := [] }

/-- The `named_replacements` dict (app.py 121-125): for each named key with an
answer, both the tight `[key]` and padded `[ key ]` spellings map to the
answer. -/
def namedReplacements (namedKeys : List Str) (ans : List (Str × Str)) :
    List (Str × Str) :=
  namedKeys.foldl
    (fun acc k =>
      match lookupA ans k with
      | some v =>
        dictInsert (dictInsert acc ('[' :: k ++ [']']) v)
          ('[' :: ' ' :: k ++ [' ', ']']) v
      | none => acc)
    []

/-- The first pass of `replace_doc_content` on one paragraph (app.py 129-143):
named substitution, then — if an underscore pattern is present — sequential
underscore substitution consuming the shared queue; if the text changed, the
paragraph's runs are collapsed to a single run holding the new text. -/
def firstPassPara (repl : List (Str × Str)) (p : Para) (q : List Str) :
    Para × List Str :=
  let orig := paraText p
  let t1 := repl.foldl (fun acc e => pyReplace acc e.1 e.2) orig
  let r := if usHas t1 then sequentialReplaceUnderscores t1 q else (t1, q)
  (if r.1 = orig then p else [r.1], r.2)

/-- The first pass over the document-order paragraph list, threading the
underscore-value queue across paragraphs (it is one mutable list in the
source, never reset per paragraph). -/
def firstPassList (repl : List (Str × Str)) :
    List Para → List Str → List Para × List Str
  | [], q => ([], q)
  | p :: ps, q =>
    let r := firstPassPara repl p q
    let rs := firstPassList repl ps r.2
    (r.1 :: rs.1, rs.2)

/-- The backward scan positions `range(i-1, max(-1, i-12), -1)` of the fill
pass: the previous 11 paragraph indices, nearest first, clipped at 0. -/
def backCands (i : Nat) : List Nat :=
  (List.range 11).filterMap (fun d => if d + 1 ≤ i then some (i - (d + 1)) else none)

/-- Party resolution of the fill pass (app.py 151-157): nearest marker among
the previous 11 paragraphs, reading the paragraphs' current text. -/
def findPartyBack (paras : List Para) (i : Nat) : Option Str :=
  (backCands i).findSome? (fun j => markerParty (pyStrip (paraText (paras.getD j []))))

/-- One iteration of the signature fill loop (app.py 147-185) over snapshot
index `i`.  State: the current text of the `n` original paragraphs, plus the
paragraphs so far inserted directly after each original paragraph (the source
mutates paragraph objects in place and `addnext`-inserts new siblings after
the anchor; inserted paragraphs are not in the `flat` snapshot).  A label
paragraph with a party marker in the backward window and a recorded answer
rewrites the following paragraph to the value's first line (runs collapsed to
one) and inserts one single-run paragraph per further line, in order; with no
following paragraph, no marker, or no answer, the step changes nothing. -/
def sigStep (ans : List (Str × Str)) (n : Nat)
    (st : List Para × List (List Para)) (i : Nat) : List Para × List (List Para) :=
  let t := pyStrip (paraText (st.1.getD i []))
  match sigFieldMatch t with
  | none => st
  | some f =>
    match findPartyBack st.1 i with
    | none => st
    | some party =>
      match lookupA ans (party ++ ' ' :: f) with
      | none => st
      | some v =>
        let lines := pySplitlinesOr v
        if i + 1 < n then
          (st.1.set (i + 1) [lines.headD []],
           st.2.set (i + 1) (lines.tail.map (fun l => [l])))
        else st

/-- Re-linearize the mutated paragraphs with their inserted successors. -/
def assembleDoc : List Para → List (List Para) → List Para
  | [], _ => []
  | p :: ps, [] => p :: assembleDoc ps []
  | p :: ps, e :: es => p :: (e ++ assembleDoc ps es)

/-- The signature fill pass (app.py 145-185): iterate the snapshot indices in
order and re-linearize. -/
def sigPass (ans : List (Str × Str)) (paras : List Para) : List Para :=
  let n := paras.length
  let st := (List.range n).foldl (sigStep ans n) (paras, List.replicate n ([] : List Para))
  assembleDoc st.1 st.2

/-- `replace_doc_content` (app.py 120-187), producing the output document's
paragraph list in document order.  All reads, writes and insertions of the
source act on the `iter_paragraphs` linearization (an `addnext` after an
anchor paragraph is an insertion directly after it within its parent, hence
directly after it in document order), so the engine is embedded on that
linearization. -/
def replaceDocContent (doc : Docx) (ans : List (Str × Str)) (sess : Session) :
    List Para :=
  let repl := namedReplacements sess.named_keys ans
  let queue := sess.underscore_keys.map (fun k => (lookupA ans k).getD [])
  let fp := firstPassList repl (iterParagraphs doc) queue
  sigPass ans fp.1

/-- `make_preview_html` (app.py 189-194): escape `&`, `<`, `>` in that order,
render an empty paragraph as `&nbsp;`, one `<p>` block per paragraph joined by
newlines inside a `<div>` wrapper. -/
def makePreviewHtml (paras : List Para) : Str :=
  let blocks := paras.map (fun p =>
    let txt := pyReplace (pyReplace (pyReplace (paraText p)
      (cs "&") (cs "&amp;")) (cs "<") (cs "&lt;")) (cs ">") (cs "&gt;")
    cs "<p>" ++ (if txt.isEmpty then cs "&nbsp;" else txt) ++ cs "</p>")
  cs "<div>" ++ joinWith ['\n'] blocks ++ cs "</div>"

/-- The `/api/preview` route body (app.py 259-268) for a known session: parse
the stored original afresh, run the replacement engine with the current
answers, render.  Returned as a state transformer to make explicit that the
route reads but never writes session state. -/
def previewRoute (sess : Session) : Str × Session :=
  let doc := sess.original
  let out := replaceDocContent doc sess.answers sess
  (makePreviewHtml out, sess)

/-- The `/api/answer` route body (app.py 244-257) for a known session: an
unknown field is rejected with HTTP 400 before any state change; a known field
is stored (stringified) and 200 returned.  The response body (next unanswered
key, remaining count) is not modelled beyond the status code. -/
def postAnswer (sess : Session) (field v : Str) : Nat × Session :=
  if field ∈ sess.all_keys then
    (200, { sess with answers := dictInsert sess.answers field v })
  else
    (400, sess)

/-!
### Helper lemmas
-/

theorem charToNatOfNat {n : Nat} (h : n < 55296) : (Char.ofNat n).toNat = n := by
  have hv : n.isValidChar := Or.inl h
  rw [Char.ofNat, dif_pos hv]
  rfl

theorem charEqOfToNatEq {c d : Char} (h : c.toNat = d.toNat) : c = d :=
  Char.ext (UInt32.toNat.inj h)

/-- The ASCII case maps agree on lower-case images: two characters with the
same `toLower` image have the same `toUpper` image. -/
theorem toUpperCongrOfToLower {c d : Char} (h : c.toLower = d.toLower) :
    c.toUpper = d.toUpper := by
  unfold Char.toLower at h
  unfold Char.toUpper
  by_cases hc : c.toNat ≥ 65 ∧ c.toNat ≤ 90
  · rw [if_pos hc] at h
    have hcv : (Char.ofNat (c.toNat + 32)).toNat = c.toNat + 32 :=
      charToNatOfNat (by omega)
    by_cases hd : d.toNat ≥ 65 ∧ d.toNat ≤ 90
    · rw [if_pos hd] at h
      have hdv : (Char.ofNat (d.toNat + 32)).toNat = d.toNat + 32 :=
        charToNatOfNat (by omega)
      have : c.toNat = d.toNat := by
        have := congrArg Char.toNat h
        rw [hcv, hdv] at this
        omega
      rw [charEqOfToNatEq this]
    · rw [if_neg hd] at h
      have hdn : d.toNat = c.toNat + 32 := by
        have := congrArg Char.toNat h
        rw [hcv] at this
        omega
      rw [if_neg (by omega), if_pos (by omega)]
      have : d.toNat - 32 = c.toNat := by omega
      rw [this]
      exact (charEqOfToNatEq (charToNatOfNat (by omega))).symm
  · rw [if_neg hc] at h
    by_cases hd : d.toNat ≥ 65 ∧ d.toNat ≤ 90
    · rw [if_pos hd] at h
      have hcn : c.toNat = d.toNat + 32 := by
        have := congrArg Char.toNat h
        rw [charToNatOfNat (n := d.toNat + 32) (by omega)] at this
        omega
      rw [if_pos (by omega), if_neg (by omega)]
      have : c.toNat - 32 = d.toNat := by omega
      rw [this]
      exact charEqOfToNatEq (charToNatOfNat (by omega))
    · rw [if_neg hd] at h
      subst h
      rfl

/-- Lifting `toUpperCongrOfToLower` to texts: equal `pyLower` images give
equal `pyUpper` images. -/
theorem pyUpperCongr {t s : Str} (h : pyLower t = pyLower s) :
    pyUpper t = pyUpper s := by
  unfold pyLower at h
  unfold pyUpper
  induction t generalizing s with
  | nil => cases s with
    | nil => rfl
    | cons b bs => simp at h
  | cons a as ih =>
    cases s with
    | nil => simp at h
    | cons b bs =>
      simp only [List.map_cons, List.cons.injEq] at h ⊢
      exact ⟨toUpperCongrOfToLower h.1, ih h.2⟩

/-!
### C1 — determinism, idempotence, no mutation of session state
-/

/-- C1.  For every stored original document and answers map, a render parses
the original afresh and is a pure projection: the preview route leaves the
session (stored original, detector outputs, merged keys, answers) exactly as
it was, and a second run on the post-run session yields a structurally
identical output document and identical rendered output.  (In the embedding,
mutation of the fresh parse is explicit state passing, so "never mutates the
stored original" is the first conjunct.) -/
theorem preview_deterministic_idempotent (s : Session) :
    (previewRoute s).2 = s ∧
    replaceDocContent s.original s.answers s =
      replaceDocContent ((previewRoute s).2).original ((previewRoute s).2).answers
        ((previewRoute s).2) ∧
    (previewRoute s).1 = (previewRoute ((previewRoute s).2)).1 :=
  ⟨rfl, rfl, rfl⟩

/-!
### C6 — unknown-field submissions are rejected without touching answers
-/

/-- C6.  An answer submission whose key is not in the session's merged key
list is rejected with a client error (HTTP 400) and the session — in
particular its answers map — is returned exactly as it was. -/
theorem unknown_field_rejected (sess : Session) (field v : Str)
    (h : field ∉ sess.all_keys) :
    postAnswer sess field v = (400, sess) ∧
    ((postAnswer sess field v).2).answers = sess.answers := by
  unfold postAnswer
  rw [if_neg h]
  exact ⟨rfl, rfl⟩

/-- Closed instance of `unknown_field_rejected`. -/
theorem unknown_field_rejected_witness :
    postAnswer (buildSessionsForDoc ⟨[[cs "[Name]"]], []⟩) (cs "Oops") (cs "v") =
      (400, buildSessionsForDoc ⟨[[cs "[Name]"]], []⟩) :=
  (unknown_field_rejected (buildSessionsForDoc ⟨[[cs "[Name]"]], []⟩)
    (cs "Oops") (cs "v") (by decide)).1

/-!
### C8 — the merged key list (merge_unique) and C9 — underscore label uniqueness
-/
theorem mergeInnerEq (l : List Str) (seen out : List Str) :
    (l.foldl
      (fun st2 item =>
        if item ∈ st2.1 then st2 else (item :: st2.1, st2.2 ++ [item]))
      (seen, out)).2 = out ++ dedupSeen seen l := by
  induction l generalizing seen out with
  | nil => simp [dedupSeen]
  | cons a l ih =>
    by_cases h : a ∈ seen
    · simp only [List.foldl_cons, if_pos h, dedupSeen, ih]
    · simp only [List.foldl_cons, if_neg h, dedupSeen, ih, List.append_assoc,
        List.singleton_append]

theorem mergeInnerSeen (l : List Str) (seen out : List Str) :
    ∀ x, x ∈ (l.foldl
      (fun st2 item =>
        if item ∈ st2.1 then st2 else (item :: st2.1, st2.2 ++ [item]))
      (seen, out)).1 ↔ (x ∈ seen ∨ x ∈ l) := by
  induction l generalizing seen out with
  | nil => simp
  | cons a l ih =>
    intro x
    by_cases h : a ∈ seen
    · simp only [List.foldl_cons, if_pos h, ih]
      constructor
      · rintro (hx | hx)
        · exact Or.inl hx
        · exact Or.inr (List.mem_cons_of_mem _ hx)
      · rintro (hx | hx)
        · exact Or.inl hx
        · rcases List.mem_cons.mp hx with rfl | hx
          · exact Or.inl h
          · exact Or.inr hx
    · simp only [List.foldl_cons, if_neg h, ih, List.mem_cons]
      tauto

theorem dedupSeenNodupAux (l : List Str) (seen : List Str) :
    (dedupSeen seen l).Nodup ∧ ∀ x ∈ dedupSeen seen l, x ∉ seen := by
  induction l generalizing seen with
  | nil => simp [dedupSeen]
  | cons a l ih =>
    by_cases h : a ∈ seen
    · simpa [dedupSeen, h] using ih seen
    · have := ih (a :: seen)
      simp only [dedupSeen, if_neg h, List.nodup_cons]
      refine ⟨⟨fun hmem => ?_, this.1⟩, ?_⟩
      · exact (this.2 a hmem) (List.mem_cons_self a seen)
      · intro x hx
        rcases List.mem_cons.mp hx with rfl | hx
        · exact h
        · intro hxs
          exact this.2 x hx (List.mem_cons_of_mem _ hxs)



theorem dedupSeenCongr {s1 s2 : List Str} (h : ∀ x, x ∈ s1 ↔ x ∈ s2) :
    ∀ l, dedupSeen s1 l = dedupSeen s2 l := by
  intro l
  induction l generalizing s1 s2 with
  | nil => rfl
  | cons a l ih =>
    by_cases ha : a ∈ s1
    · rw [dedupSeen, if_pos ha, dedupSeen, if_pos ((h a).mp ha)]
      exact ih h
    · rw [dedupSeen, if_neg ha, dedupSeen, if_neg (fun hx => ha ((h a).mpr hx))]
      refine congrArg (a :: ·) (ih ?_)
      intro x
      simp only [List.mem_cons]
      exact or_congr Iff.rfl (h x)

theorem dedupSeenAppend (l1 l2 seen : List Str) :
    dedupSeen seen (l1 ++ l2) = dedupSeen seen l1 ++ dedupSeen (l1 ++ seen) l2 := by
  induction l1 generalizing seen with
  | nil => simp [dedupSeen]
  | cons a l1 ih =>
    rw [List.cons_append]
    by_cases h : a ∈ seen
    · rw [dedupSeen, if_pos h, dedupSeen, if_pos h, ih]
      have e : dedupSeen (l1 ++ seen) l2 = dedupSeen (a :: l1 ++ seen) l2 := by
        refine dedupSeenCongr (fun x => ?_) l2
        rw [List.cons_append]
        simp only [List.mem_append, List.mem_cons]
        constructor
        · rintro (hx | hx)
          · exact Or.inr (Or.inl hx)
          · exact Or.inr (Or.inr hx)
        · rintro (rfl | hx | hx)
          · exact Or.inr h
          · exact Or.inl hx
          · exact Or.inr hx
      rw [e]
    · rw [dedupSeen, if_neg h, dedupSeen, if_neg h, ih, List.cons_append,
        List.cons_append]
      have e : dedupSeen (l1 ++ a :: seen) l2 = dedupSeen (a :: (l1 ++ seen)) l2 := by
        refine dedupSeenCongr (fun x => ?_) l2
        simp only [List.mem_append, List.mem_cons]
        tauto
      rw [e]

/-- C8 core: `merge_unique` of three lists is first-occurrence deduplication
of their concatenation. -/
theorem mergeUniqueEq (a b c : List Str) :
    mergeUnique [a, b, c] = dedupSeen [] (a ++ b ++ c) := by
  unfold mergeUnique
  simp only [List.foldl_cons, List.foldl_nil]
  set step := fun (st2 : List Str × List Str) (item : Str) =>
    if item ∈ st2.1 then st2 else (item :: st2.1, st2.2 ++ [item]) with hstep
  set st1 := a.foldl step ([], []) with hst1
  set st2 := b.foldl step st1 with hst2
  have h1o : st1.2 = dedupSeen [] a := by
    have := mergeInnerEq a [] []
    rw [← hstep] at this
    simpa using this
  have h1s : ∀ x, x ∈ st1.1 ↔ x ∈ a := by
    intro x
    have := mergeInnerSeen a [] [] x
    rw [← hstep] at this
    simpa using this
  have h2o : st2.2 = st1.2 ++ dedupSeen st1.1 b := by
    have := mergeInnerEq b st1.1 st1.2
    rw [← hstep] at this
    simpa using this
  have h2s : ∀ x, x ∈ st2.1 ↔ x ∈ a ∨ x ∈ b := by
    intro x
    have h := mergeInnerSeen b st1.1 st1.2 x
    rw [← hstep, Prod.mk.eta] at h
    rw [hst2]
    rw [h, h1s x]
  have h3o : (c.foldl step st2).2 = st2.2 ++ dedupSeen st2.1 c := by
    have := mergeInnerEq c st2.1 st2.2
    rw [← hstep] at this
    simpa using this
  rw [h3o, h2o, h1o]
  rw [dedupSeenAppend (a ++ b) c, dedupSeenAppend a b]
  have eb : dedupSeen st1.1 b = dedupSeen (a ++ []) b := by
    refine dedupSeenCongr (fun x => ?_) b
    rw [h1s x]
    simp
  have ec : dedupSeen st2.1 c = dedupSeen (a ++ b ++ []) c := by
    refine dedupSeenCongr (fun x => ?_) c
    rw [h2s x]
    simp [List.mem_append]
  rw [eb, ec]

def decVal (l : Str) : Nat := l.foldl (fun a c => a * 10 + (c.toNat - 48)) 0

theorem decValApp (ds : Str) (c : Char) :
    decVal (ds ++ [c]) = decVal ds * 10 + (c.toNat - 48) := by
  simp [decVal, List.foldl_append]

theorem natDecAuxVal : ∀ fuel n, n ≤ fuel → decVal (natDecAux fuel n) = n := by
  intro fuel
  induction fuel with
  | zero =>
    intro n hn
    interval_cases n
    simp [natDecAux, decVal]
  | succ fuel ih =>
    intro n hn
    match n with
    | 0 => simp [natDecAux, decVal]
    | m + 1 =>
      rw [natDecAux, decValApp]
      have hd : (m + 1) / 10 ≤ fuel := by
        have := Nat.div_lt_self (Nat.succ_pos m) (by omega : 1 < 10)
        omega
      rw [ih _ hd]
      have hr : (Char.ofNat (48 + (m + 1) % 10)).toNat = 48 + (m + 1) % 10 :=
        charToNatOfNat (by omega)
      rw [hr]
      have := Nat.div_add_mod (m + 1) 10
      omega

theorem natToDecInj {m n : Nat} (hm : 0 < m) (hn : 0 < n)
    (h : natToDec m = natToDec n) : m = n := by
  unfold natToDec at h
  rw [if_neg (by omega), if_neg (by omega)] at h
  have := congrArg decVal h
  rwa [natDecAuxVal m m (le_refl m), natDecAuxVal n n (le_refl n)] at this

theorem suffixedInj {base : Str} {k1 k2 : Nat} (h1 : 0 < k1) (h2 : 0 < k2)
    (h : suffixed base k1 = suffixed base k2) : k1 = k2 := by
  unfold suffixed at h
  have h' := List.append_cancel_left h
  have h'' := List.append_cancel_right h'
  simp only [List.cons.injEq, true_and] at h''
  exact natToDecInj h1 h2 h''

theorem searchKSome {res : List Str} {base : Str} :
    ∀ cnt k k', searchK res base cnt k = some k' →
      k ≤ k' ∧ suffixed base k' ∉ res ∧ ∀ j, k ≤ j → j < k' → suffixed base j ∈ res := by
  intro cnt
  induction cnt with
  | zero => intro k k' h; simp [searchK] at h
  | succ cnt ih =>
    intro k k' h
    rw [searchK] at h
    by_cases hm : suffixed base k ∈ res
    · rw [if_pos hm] at h
      obtain ⟨hk, hfree, hall⟩ := ih (k + 1) k' h
      refine ⟨by omega, hfree, fun j hj1 hj2 => ?_⟩
      by_cases hjk : j = k
      · rwa [hjk]
      · exact hall j (by omega) hj2
    · rw [if_neg hm] at h
      cases h
      exact ⟨le_refl _, hm, fun j hj1 hj2 => by omega⟩

theorem searchKNone {res : List Str} {base : Str} :
    ∀ cnt k, searchK res base cnt k = none →
      ∀ j, k ≤ j → j < k + cnt → suffixed base j ∈ res := by
  intro cnt
  induction cnt with
  | zero => intro k _ j hj1 hj2; omega
  | succ cnt ih =>
    intro k h j hj1 hj2
    rw [searchK] at h
    by_cases hm : suffixed base k ∈ res
    · rw [if_pos hm] at h
      by_cases hjk : j = k
      · rwa [hjk]
      · exact ih (k + 1) h j (by omega) (by omega)
    · rw [if_neg hm] at h
      cases h

theorem searchKSucceeds (res : List Str) (base : Str) :
    searchK res base (res.length + 1) 2 ≠ none := by
  intro hnone
  have hall := searchKNone (res.length + 1) 2 hnone
  set cands := (List.range (res.length + 1)).map (fun i => suffixed base (i + 2))
    with hcands
  have hsub : cands ⊆ res := by
    intro x hx
    rw [hcands] at hx
    obtain ⟨i, hi, rfl⟩ := List.mem_map.mp hx
    have := List.mem_range.mp hi
    exact hall (i + 2) (by omega) (by omega)
  have hnodup : cands.Nodup := by
    rw [hcands]
    refine (List.nodup_range _).map_on ?_
    intro i hi j hj hij
    have := suffixedInj (by omega) (by omega) hij
    omega
  have := (List.subperm_of_subset hnodup hsub).length_le
  rw [hcands] at this
  simp at this

theorem resolveNotMem (res : List Str) (base : Str) :
    resolveColl res base ∉ res := by
  unfold resolveColl
  by_cases h : base ∈ res
  · rw [if_pos h]
    cases hs : searchK res base (res.length + 1) 2 with
    | none => exact absurd hs (searchKSucceeds res base)
    | some k => exact (searchKSome _ _ _ hs).2.1
  · rwa [if_neg h]

theorem usFoldNodup (ctxs : List (Str × Str)) :
    ∀ res : List Str, res.Nodup → (ctxs.foldl usDetectStep res).Nodup := by
  induction ctxs with
  | nil => intro res h; exact h
  | cons ba ctxs ih =>
    intro res h
    rw [List.foldl_cons]
    refine ih _ ?_
    unfold usDetectStep
    simp only [List.nodup_append, List.nodup_cons, List.not_mem_nil,
      not_false_iff, List.nodup_nil, and_true, true_and]
    refine ⟨h, ?_⟩
    intro x hx hx'
    rcases List.mem_singleton.mp hx' with rfl
    exact resolveNotMem res _ hx

/-- C9.  No two labels in the underscore detector's output are textually
identical, and collision resolution works as claimed: a label colliding with a
previously emitted one is suffixed `" (k)"` with `k` starting at 2 and
incremented until unique (least such `k`). -/
theorem underscore_labels_unique (txt : Str) :
    (detectUnderscorePlaceholdersWithContext txt).Nodup ∧
    (∀ res base, base ∈ res →
      ∃ k, 2 ≤ k ∧ resolveColl res base = suffixed base k ∧
        suffixed base k ∉ res ∧ ∀ j, 2 ≤ j → j < k → suffixed base j ∈ res) := by
  constructor
  · exact usFoldNodup (usContexts txt) [] List.nodup_nil
  · intro res base hb
    unfold resolveColl
    rw [if_pos hb]
    cases hs : searchK res base (res.length + 1) 2 with
    | none => exact absurd hs (searchKSucceeds res base)
    | some k =>
      obtain ⟨hk, hfree, hall⟩ := searchKSome _ _ _ hs
      exact ⟨k, hk, rfl, hfree, hall⟩

/-- Closed instance of the collision-resolution part of
`underscore_labels_unique`: with `A` and `A (2)` already emitted, a new `A`
resolves to `A (3)`. -/
theorem underscore_labels_unique_witness :
    ∃ k, 2 ≤ k ∧ resolveColl [cs "A", cs "A (2)"] (cs "A") = suffixed (cs "A") k ∧
      suffixed (cs "A") k ∉ [cs "A", cs "A (2)"] ∧
      ∀ j, 2 ≤ j → j < k → suffixed (cs "A") j ∈ [cs "A", cs "A (2)"] :=
  (underscore_labels_unique []).2 [cs "A", cs "A (2)"] (cs "A") (by decide)

/-- C8.  The merged key list of a session equals the concatenation of named
keys, underscore labels and signature keys in that fixed precedence with later
duplicates removed keeping the first occurrence, and it contains no duplicate
entries. -/
theorem merged_key_list_spec (d : Docx) :
    (buildSessionsForDoc d).all_keys =
      dedupSeen [] ((buildSessionsForDoc d).named_keys ++
        (buildSessionsForDoc d).underscore_keys ++
        (buildSessionsForDoc d).signature_keys) ∧
    (buildSessionsForDoc d).all_keys.Nodup := by
  have he : (buildSessionsForDoc d).all_keys =
      dedupSeen [] ((buildSessionsForDoc d).named_keys ++
        (buildSessionsForDoc d).underscore_keys ++
        (buildSessionsForDoc d).signature_keys) := by
    unfold buildSessionsForDoc
    exact mergeUniqueEq _ _ _
  refine ⟨he, ?_⟩
  rw [he]
  exact (dedupSeenNodupAux _ []).1

/-!
### C2 — signature field labels require the colon (corrected)
-/

theorem sigFieldMatchSound {t f : Str} (h : sigFieldMatch t = some f) :
    f ∈ sigFields ∧ pyLower t = pyLower f ++ [':'] := by
  refine ⟨List.mem_of_find?_eq_some h, ?_⟩
  have hp := List.find?_some h
  simp only [beq_iff_eq] at hp
  exact hp

/-- A paragraph whose stripped text matches the field-label pattern is never a
party marker: its uppercased, colon-stripped text is one of BY, NAME, TITLE,
ADDRESS, EMAIL. -/
theorem fieldNotMarker {t f : Str} (h : sigFieldMatch t = some f) :
    markerParty t = none := by
  obtain ⟨hmem, heq⟩ := sigFieldMatchSound h
  fin_cases hmem
  · have hup : pyUpper t = cs "BY:" := by
      rw [pyUpperCongr (t := t) (s := cs "By:") (by rw [heq]; decide)]
      decide
    simp only [markerParty, hup]
    decide
  · have hup : pyUpper t = cs "NAME:" := by
      rw [pyUpperCongr (t := t) (s := cs "Name:") (by rw [heq]; decide)]
      decide
    simp only [markerParty, hup]
    decide
  · have hup : pyUpper t = cs "TITLE:" := by
      rw [pyUpperCongr (t := t) (s := cs "Title:") (by rw [heq]; decide)]
      decide
    simp only [markerParty, hup]
    decide
  · have hup : pyUpper t = cs "ADDRESS:" := by
      rw [pyUpperCongr (t := t) (s := cs "Address:") (by rw [heq]; decide)]
      decide
    simp only [markerParty, hup]
    decide
  · have hup : pyUpper t = cs "EMAIL:" := by
      rw [pyUpperCongr (t := t) (s := cs "Email:") (by rw [heq]; decide)]
      decide
    simp only [markerParty, hup]
    decide

theorem sigScanStepMem {st : Option Str × List Str} {x : Str} (p : Para)
    (h : x ∈ st.2) : x ∈ (sigScanStep st p).2 := by
  unfold sigScanStep
  dsimp only
  split
  · exact h
  · split
    · split
      · exact h
      · exact List.mem_append_left _ h
    · exact h

theorem sigScanKeysMono (l : List Para) :
    ∀ st : Option Str × List Str, ∀ x ∈ st.2, x ∈ (l.foldl sigScanStep st).2 := by
  induction l with
  | nil => intro st x h; exact h
  | cons p l ih =>
    intro st x h
    rw [List.foldl_cons]
    exact ih _ x (sigScanStepMem p h)

/-- C2 counterexample: a paragraph reading exactly `By` (no colon) after a
`[COMPANY]` marker emits nothing — the field regex `...(By|...):\s*$` requires
the colon, so the claimed bare-word recognition fails. -/
theorem bare_field_label_not_emitted :
    detectSignatureKeys ⟨[[cs "[COMPANY]"], [cs "By"]], []⟩ = [] ∧
    sigFieldMatch (pyStrip (paraText [cs "By"])) = none := by
  exact ⟨by decide, by decide⟩

/-- C2 amended: during signature-key detection, a paragraph whose trimmed text
is a field word followed by a mandatory colon (case-insensitively; a bare
field word without colon is not recognized) while the current party is set
emits `"{party} {Field}"` if not already emitted, and the key is in the
detector's final output. -/
theorem colon_field_key_emitted (pre : List Para) (p : Para) (post : List Para)
    (party f : Str)
    (h1 : (pre.foldl sigScanStep (none, [])).1 = some party)
    (h2 : sigFieldMatch (pyStrip (paraText p)) = some f) :
    ((pre ++ [p]).foldl sigScanStep (none, [])).2 =
      (if party ++ ' ' :: f ∈ (pre.foldl sigScanStep (none, [])).2
       then (pre.foldl sigScanStep (none, [])).2
       else (pre.foldl sigScanStep (none, [])).2 ++ [party ++ ' ' :: f]) ∧
    party ++ ' ' :: f ∈ ((pre ++ p :: post).foldl sigScanStep (none, [])).2 := by
  have hstep : ∀ st : Option Str × List Str, st.1 = some party →
      sigScanStep st p =
        (some party, if party ++ ' ' :: f ∈ st.2 then st.2
         else st.2 ++ [party ++ ' ' :: f]) := by
    intro st hst
    unfold sigScanStep
    dsimp only
    rw [fieldNotMarker h2, h2, hst]
  have hone : (pre ++ [p]).foldl sigScanStep (none, []) =
      (some party,
        if party ++ ' ' :: f ∈ (pre.foldl sigScanStep (none, [])).2
        then (pre.foldl sigScanStep (none, [])).2
        else (pre.foldl sigScanStep (none, [])).2 ++ [party ++ ' ' :: f]) := by
    rw [List.foldl_append, List.foldl_cons, List.foldl_nil]
    exact hstep _ h1
  refine ⟨by rw [hone], ?_⟩
  have hsplit : pre ++ p :: post = (pre ++ [p]) ++ post := by simp
  rw [hsplit, List.foldl_append, hone]
  refine sigScanKeysMono post _ _ ?_
  by_cases hmem : party ++ ' ' :: f ∈ (pre.foldl sigScanStep (none, [])).2
  · simp [hmem]
  · simp [hmem]

/-- Closed instance of `colon_field_key_emitted`: `[COMPANY]` then a `bY:`
paragraph emits `Company By`. -/
theorem colon_field_key_emitted_witness :
    (([[cs "[COMPANY]"]] ++ [[cs "bY:"]]).foldl sigScanStep (none, [])).2 =
      [cs "Company" ++ ' ' :: cs "By"] ∧
    cs "Company" ++ ' ' :: cs "By" ∈
      (([[cs "[COMPANY]"]] ++ [cs "bY:"] :: [[cs "x"]]).foldl sigScanStep (none, [])).2 := by
  have h := colon_field_key_emitted [[cs "[COMPANY]"]] [cs "bY:"] [[cs "x"]]
    (cs "Company") (cs "By") (by decide) (by decide)
  exact ⟨by rw [h.1]; decide, h.2⟩

/-!
### C3 — quoted-phrase labels take the first occurrence in the window (corrected)
-/

theorem takeDropWhileSplit (p : Char → Bool) :
    ∀ (l1 : Str) (c : Char) (l2 : Str), (∀ x ∈ l1, p x = true) → p c = false →
      (l1 ++ c :: l2).takeWhile p = l1 ∧ (l1 ++ c :: l2).dropWhile p = c :: l2 := by
  intro l1
  induction l1 with
  | nil =>
    intro c l2 _ hc
    simp [List.takeWhile, List.dropWhile, hc]
  | cons a l1 ih =>
    intro c l2 hall hc
    have ha : p a = true := hall a (List.mem_cons_self a l1)
    have := ih c l2 (fun x hx => hall x (List.mem_cons_of_mem a hx)) hc
    simp [List.takeWhile_cons, List.dropWhile_cons, ha, this.1, this.2]

theorem quotedSearchSplit (u : Str) (qo : Char) (inner : Str) (qc : Char)
    (rest : Str)
    (hqo : qo = '“' ∨ qo = '"') (hqc : qc = '”' ∨ qc = '"')
    (hne : inner ≠ []) (hin : ∀ c ∈ inner, c ≠ '”' ∧ c ≠ '"')
    (hu : ∀ c ∈ u, c ≠ '“' ∧ c ≠ '"') :
    quotedSearchFn (u ++ qo :: inner ++ qc :: rest) = some inner := by
  induction u with
  | nil =>
    rw [List.nil_append]
    show quotedSearchFn (qo :: (inner ++ qc :: rest)) = some inner
    simp only [quotedSearchFn]
    rw [if_pos hqo]
    have hpin : ∀ x ∈ inner, (!(x == '”' || x == '"')) = true := by
      intro x hx
      have := hin x hx
      simp [this.1, this.2]
    have hpqc : (!(qc == '”' || qc == '"')) = false := by
      rcases hqc with rfl | rfl <;> decide
    have hsplit := takeDropWhileSplit _ inner qc rest hpin hpqc
    rw [hsplit.1, hsplit.2]
    simp [hne]
  | cons a u ih =>
    rw [List.cons_append]
    show quotedSearchFn (a :: (u ++ qo :: inner ++ qc :: rest)) = some inner
    simp only [quotedSearchFn]
    have ha := hu a (List.mem_cons_self a u)
    rw [if_neg (by rintro (rfl | rfl) <;> simp at ha)]
    exact ih (fun c hc => hu c (List.mem_cons_of_mem a hc))

/-- C3 counterexample: with two quoted phrases inside the 120-character
window, the code labels the underscore with the quoted text of the first
(leftmost, i.e. farthest) occurrence, not — as claimed — the nearest (last)
one. -/
theorem quoted_label_nearest_refuted :
    labelFromContext (cs "said \"Alpha\" then \"Beta\" here ") [] =
      some (cs "Alpha") ∧ cs "Alpha" ≠ cs "Beta" := by
  exact ⟨by decide, by decide⟩

/-- C3 amended: when the `(the "X"` rule on `after` fails and the last 120
characters of `before` contain a quoted phrase, the inferred label is the
(stripped) quoted text of the first — leftmost, farthest from the placeholder
— such occurrence in that window. -/
theorem quoted_label_first_occurrence (before after u inner rest : Str)
    (qo qc : Char)
    (hpar : theParenSearchFn after = none)
    (hdec : takeRight 120 before = u ++ qo :: inner ++ qc :: rest)
    (hqo : qo = '“' ∨ qo = '"') (hqc : qc = '”' ∨ qc = '"')
    (hne : inner ≠ []) (hin : ∀ c ∈ inner, c ≠ '”' ∧ c ≠ '"')
    (hu : ∀ c ∈ u, c ≠ '“' ∧ c ≠ '"') :
    labelFromContext before after = some (pyStrip inner) := by
  unfold labelFromContext
  rw [hpar, hdec, quotedSearchSplit u qo inner qc rest hqo hqc hne hin hu]

/-- Closed instance of `quoted_label_first_occurrence` on the spec's concrete
scenario `He is called "Max" and signs here [____].`. -/
theorem quoted_label_first_occurrence_witness :
    labelFromContext (cs "He is called \"Max\" and signs here ") (cs ".") =
      some (cs "Max") := by
  have h := quoted_label_first_occurrence
    (cs "He is called \"Max\" and signs here ") (cs ".")
    (cs "He is called ") (cs "Max") (cs " and signs here ") '"' '"'
    (by decide) (by decide) (by decide) (by decide) (by decide) (by decide)
    (by decide)
  rw [h]
  decide

/-!
### C10 — the signature fill pass skips safely, C5 — multi-line signature fill
-/

/-- C10.  A fill-pass iteration at a field-label paragraph changes nothing
(and, the functions being total, raises nothing) when the label is the last
paragraph (no `i+1` in range), when no party marker is found among the
previous 11 paragraphs, or when the resolved key has no recorded answer; the
fold then continues over the rest of the document from the unchanged state. -/
theorem sig_fill_skips (ans : List (Str × Str)) (n : Nat)
    (paras : List Para) (ins : List (List Para)) (i : Nat) :
    (¬ (i + 1 < n) → sigStep ans n (paras, ins) i = (paras, ins)) ∧
    (findPartyBack paras i = none → sigStep ans n (paras, ins) i = (paras, ins)) ∧
    (∀ f party, sigFieldMatch (pyStrip (paraText (paras.getD i []))) = some f →
      findPartyBack paras i = some party →
      lookupA ans (party ++ ' ' :: f) = none →
      sigStep ans n (paras, ins) i = (paras, ins)) := by
  refine ⟨?_, ?_, ?_⟩
  · intro h
    unfold sigStep
    dsimp only
    cases hf : sigFieldMatch (pyStrip (paraText (paras.getD i []))) with
    | none => simp
    | some f =>
      cases hp : findPartyBack paras i with
      | none => simp
      | some party =>
        cases hv : lookupA ans (party ++ ' ' :: f) with
        | none => simp [hv]
        | some v => simp [hv, h]
  · intro h
    unfold sigStep
    dsimp only
    cases hf : sigFieldMatch (pyStrip (paraText (paras.getD i []))) with
    | none => simp
    | some f => rw [h]
  · intro f party hf hp hv
    unfold sigStep
    dsimp only
    rw [hf, hp]
    simp [hv]

/-- Closed instances of all three skip conditions of `sig_fill_skips`. -/
theorem sig_fill_skips_witness :
    sigStep [(cs "Company By", cs "J")] 2 ([[cs "[COMPANY]"], [cs "By:"]], [[], []]) 1 =
      ([[cs "[COMPANY]"], [cs "By:"]], [[], []]) ∧
    sigStep [] 3 ([[cs "z"], [cs "By:"], [cs "w"]], [[], [], []]) 1 =
      ([[cs "z"], [cs "By:"], [cs "w"]], [[], [], []]) ∧
    sigStep [] 3 ([[cs "[COMPANY]"], [cs "By:"], [cs "w"]], [[], [], []]) 1 =
      ([[cs "[COMPANY]"], [cs "By:"], [cs "w"]], [[], [], []]) := by
  refine ⟨(sig_fill_skips _ 2 _ _ 1).1 (by decide), ?_, ?_⟩
  · exact (sig_fill_skips _ 3 _ _ 1).2.1 (by decide)
  · exact (sig_fill_skips _ 3 _ _ 1).2.2 (cs "By") (cs "Company")
      (by decide) (by decide) (by decide)

theorem sigStepId {ans : List (Str × Str)} {n : Nat}
    {st : List Para × List (List Para)} {i : Nat}
    (h : sigFieldMatch (pyStrip (paraText (st.1.getD i []))) = none) :
    sigStep ans n st i = st := by
  unfold sigStep
  dsimp only
  rw [h]

theorem foldSigId (ans : List (Str × Str)) (n : Nat) :
    ∀ (l : List Nat) (st : List Para × List (List Para)),
      (∀ i ∈ l, sigStep ans n st i = st) → l.foldl (sigStep ans n) st = st := by
  intro l
  induction l with
  | nil => intro st _; rfl
  | cons i l ih =>
    intro st h
    rw [List.foldl_cons, h i (List.mem_cons_self i l)]
    exact ih st (fun j hj => h j (List.mem_cons_of_mem i hj))

theorem assembleReplicate : ∀ ps : List Para,
    assembleDoc ps (List.replicate ps.length []) = ps := by
  intro ps
  induction ps with
  | nil => rfl
  | cons p ps ih =>
    rw [List.length_cons, List.replicate_succ, assembleDoc, List.nil_append, ih]

theorem assembleSet : ∀ (ps : List Para) (m : Nat) (q : Para) (ext : List Para),
    m < ps.length →
    assembleDoc (ps.set m q) ((List.replicate ps.length ([] : List Para)).set m ext) =
      ps.take m ++ q :: ext ++ ps.drop (m + 1) := by
  intro ps
  induction ps with
  | nil => intro m q ext h; simp at h
  | cons p ps ih =>
    intro m q ext h
    cases m with
    | zero =>
      rw [List.length_cons, List.replicate_succ]
      rw [List.set_cons_zero, List.set_cons_zero, assembleDoc, assembleReplicate]
      simp
    | succ m =>
      rw [List.length_cons, List.replicate_succ]
      rw [List.set_cons_succ, List.set_cons_succ, assembleDoc, List.nil_append]
      rw [ih m q ext (by simpa using h)]
      simp

/-- C5.  In the signature fill pass, a recognized field label at snapshot
index `i` with a resolved party and a recorded answer (and no other label
paragraph in the document) has its answer split on line breaks (an empty value
giving one empty line, handled inside `pySplitlinesOr`): the first line
replaces the paragraph at `i+1` with a single run, and each subsequent line
becomes exactly one inserted single-run paragraph, in original line order,
directly after position `i+1`. -/
theorem signature_multiline_fill (ans : List (Str × Str)) (paras : List Para)
    (i : Nat) (party f v : Str) (l0 : Str) (ls : List Str)
    (hi : i + 1 < paras.length)
    (hf : sigFieldMatch (pyStrip (paraText (paras.getD i []))) = some f)
    (hothers : ∀ j, j < paras.length → j ≠ i →
      sigFieldMatch (pyStrip (paraText (paras.getD j []))) = none)
    (hp : findPartyBack paras i = some party)
    (hv : lookupA ans (party ++ ' ' :: f) = some v)
    (hl : pySplitlinesOr v = l0 :: ls)
    (hl0 : sigFieldMatch (pyStrip l0) = none) :
    sigPass ans paras =
      paras.take (i + 1) ++ [l0] :: (ls.map (fun l => [l])) ++ paras.drop (i + 2) := by
  unfold sigPass
  dsimp only
  set n := paras.length with hn
  set st0 : List Para × List (List Para) := (paras, List.replicate n []) with hst0
  set st1 : List Para × List (List Para) :=
    (paras.set (i + 1) [l0], (List.replicate n ([] : List Para)).set (i + 1)
      (ls.map (fun l => [l]))) with hst1
  have hilt : i < n := by omega
  have hsplit : List.range n = List.range' 0 i ++ i :: List.range' (i + 1) (n - i - 1) := by
    rw [List.range_eq_range']
    have h1 : List.range' 0 i ++ List.range' (0 + 1 * i) (n - i) = List.range' 0 ((n - i) + i) :=
      List.range'_append 0 i (n - i) 1
    have h2 : (n - i) + i = n := by omega
    have h3 : n - i = (n - i - 1) + 1 := by omega
    rw [h2] at h1
    rw [← h1, h3, List.range'_succ]
    simp
  rw [hsplit, List.foldl_append, List.foldl_cons]
  have hphase1 : List.foldl (sigStep ans n) st0 (List.range' 0 i) = st0 := by
    refine foldSigId ans n _ st0 (fun j hj => ?_)
    have hji : j < i := by
      have := List.mem_range'.mp hj
      omega
    exact sigStepId (hothers j (by omega) (by omega))
  rw [hphase1]
  have hstep : sigStep ans n st0 i = st1 := by
    rw [hst0, hst1]
    unfold sigStep
    simp only [hf, hp, hv, hl, if_pos hi]
    simp
  rw [hstep]
  have hphase3 : List.foldl (sigStep ans n) st1 (List.range' (i + 1) (n - i - 1)) = st1 := by
    refine foldSigId ans n _ st1 (fun j hj => ?_)
    have hji : i + 1 ≤ j ∧ j < n := by
      obtain ⟨m, hm1, hm2⟩ := List.mem_range'.mp hj
      omega
    refine sigStepId ?_
    rw [hst1]
    dsimp only
    by_cases hj1 : j = i + 1
    · subst hj1
      rw [List.getD_eq_getElem?_getD, List.getElem?_set_self (by omega)]
      simp only [Option.getD_some]
      have : paraText [l0] = l0 := by
        simp [paraText]
      rw [this]
      exact hl0
    · rw [List.getD_eq_getElem?_getD, List.getElem?_set_ne (fun hx => hj1 hx.symm),
        ← List.getD_eq_getElem?_getD]
      exact hothers j (by omega) (by omega)
  rw [hphase3, hst1]
  exact assembleSet paras (i + 1) [l0] (ls.map (fun l => [l])) hi

/-- Closed instance of `signature_multiline_fill`: the spec's scenario with a
two-line answer `Jane\nDoe` below a `[COMPANY] / By:` block. -/
theorem signature_multiline_fill_witness :
    sigPass [(cs "Company By", cs "Jane\nDoe")]
      [[cs "[COMPANY]"], [cs "By:"], [cs "old"]] =
      [[cs "[COMPANY]"], [cs "By:"], [cs "Jane"], [cs "Doe"]] := by
  have h := signature_multiline_fill [(cs "Company By", cs "Jane\nDoe")]
    [[cs "[COMPANY]"], [cs "By:"], [cs "old"]] 1 (cs "Company") (cs "By")
    (cs "Jane\nDoe") (cs "Jane") [cs "Doe"]
    (by decide) (by decide) (by decide) (by decide) (by decide) (by decide)
    (by decide)
  rw [h]
  decide

/-!
### C4 — underscore occurrences consume one document-wide queue
-/

theorem lenDropWhileLe (p : Char → Bool) : ∀ l : Str, (l.dropWhile p).length ≤ l.length := by
  intro l
  induction l with
  | nil => simp
  | cons a l ih =>
    rw [List.dropWhile_cons]
    by_cases h : p a = true
    · rw [if_pos h]
      simp only [List.length_cons]
      omega
    · rw [if_neg h]

theorem tryUSLen : ∀ {s rem : Str}, tryUS s = some rem → rem.length < s.length := by
  intro s rem h
  match s with
  | [] => simp [tryUS] at h
  | c :: s1 =>
    rw [tryUS] at h
    by_cases hc : c = '['
    · rw [if_pos hc] at h
      by_cases h2 : 2 ≤ ((s1.dropWhile isPySpace).takeWhile (· == '_')).length
      · rw [if_pos h2] at h
        split at h
        case _ rem' heq =>
          simp only [Option.some.injEq] at h
          subst h
          have hle : (((s1.dropWhile isPySpace).dropWhile (· == '_')).dropWhile
              isPySpace).length ≤ s1.length :=
            le_trans (lenDropWhileLe _ _) (le_trans (lenDropWhileLe _ _)
              (lenDropWhileLe _ _))
          rw [heq] at hle
          simp only [List.length_cons] at hle ⊢
          omega
        case _ => exact absurd h (by simp)
      · rw [if_neg h2] at h
        exact absurd h (by simp)
    · rw [if_neg hc] at h
      exact absurd h (by simp)

theorem seqReplAuxCons (fuel : Nat) (c : Char) (rest : Str) (q : List Str) :
    seqReplAux (fuel + 1) (c :: rest) q =
      match tryUS (c :: rest) with
      | some rem =>
        ((match q with | [] => [] | x :: _ => x) ++ (seqReplAux fuel rem q.tail).1,
          (seqReplAux fuel rem q.tail).2)
      | none =>
        (c :: (seqReplAux fuel rest q).1, (seqReplAux fuel rest q).2) := rfl

theorem tryUSNotBracket {c : Char} (rest : Str) (hc : c ≠ '[') :
    tryUS (c :: rest) = none := by
  rw [tryUS, if_neg hc]

theorem seqReplAuxFI : ∀ (f1 : Nat) (f2 : Nat) (s : Str) (q : List Str),
    s.length < f1 → s.length < f2 → seqReplAux f1 s q = seqReplAux f2 s q := by
  intro f1
  induction f1 with
  | zero => intro f2 s q h1 _; omega
  | succ f1 ih =>
    intro f2 s q h1 h2
    match f2 with
    | 0 => omega
    | g + 1 =>
      match s with
      | [] => rfl
      | c :: rest =>
        rw [seqReplAuxCons, seqReplAuxCons]
        cases hm : tryUS (c :: rest) with
        | some rem =>
          have hlen := tryUSLen hm
          simp only [List.length_cons] at h1 h2 hlen
          dsimp only
          rw [ih g rem q.tail (by omega) (by omega)]
        | none =>
          simp only [List.length_cons] at h1 h2
          dsimp only
          rw [ih g rest q (by omega) (by omega)]

theorem seqReplAuxNoBracket : ∀ (fuel : Nat) (s : Str) (q : List Str),
    s.length < fuel → '[' ∉ s → seqReplAux fuel s q = (s, q) := by
  intro fuel
  induction fuel with
  | zero => intro s q h _; omega
  | succ fuel ih =>
    intro s q h hb
    match s with
    | [] => rfl
    | c :: rest =>
      have hc : c ≠ '[' := fun hx => hb (hx ▸ List.mem_cons_self c rest)
      rw [seqReplAuxCons, tryUSNotBracket rest hc]
      simp only [List.length_cons] at h
      dsimp only
      rw [ih rest q (by omega) (fun hx => hb (List.mem_cons_of_mem c hx))]

/-- No underscore match in text without `[`. -/
theorem seqNoBracket {s : Str} (q : List Str) (hb : '[' ∉ s) :
    sequentialReplaceUnderscores s q = (s, q) :=
  seqReplAuxNoBracket _ s q (by omega) hb

theorem seqReplAuxPrepend : ∀ (a : Str) (fuel : Nat) (s : Str) (q : List Str),
    (a ++ s).length < fuel → '[' ∉ a →
    seqReplAux fuel (a ++ s) q =
      (a ++ (seqReplAux fuel s q).1, (seqReplAux fuel s q).2) := by
  intro a
  induction a with
  | nil => intro fuel s q _ _; simp
  | cons c a ih =>
    intro fuel s q h hb
    match fuel with
    | 0 => simp at h
    | g + 1 =>
      have hc : c ≠ '[' := fun hx => hb (hx ▸ List.mem_cons_self c a)
      rw [List.cons_append, seqReplAuxCons, tryUSNotBracket _ hc]
      simp only [List.length_append, List.length_cons] at h
      dsimp only
      rw [ih g s q (by simp only [List.length_append]; omega)
        (fun hx => hb (List.mem_cons_of_mem c hx))]
      rw [seqReplAuxFI g (g + 1) s q (by omega) (by omega)]
      rfl

/-- Prepending match-free text distributes over sequential replacement. -/
theorem seqPrepend (a s : Str) (q : List Str) (hb : '[' ∉ a) :
    sequentialReplaceUnderscores (a ++ s) q =
      (a ++ (sequentialReplaceUnderscores s q).1,
        (sequentialReplaceUnderscores s q).2) := by
  unfold sequentialReplaceUnderscores
  rw [seqReplAuxPrepend a _ s q (by omega) hb]
  rw [seqReplAuxFI ((a ++ s).length + 1) (s.length + 1) s q
    (by simp only [List.length_append]; omega) (by omega)]

/-- An anchored underscore match consumes one queue entry (or the empty
string if the queue is empty) and continues on the remainder. -/
theorem seqMatchStep {s rem : Str} (q : List Str) (hm : tryUS s = some rem) :
    sequentialReplaceUnderscores s q =
      (q.headD [] ++ (sequentialReplaceUnderscores rem q.tail).1,
        (sequentialReplaceUnderscores rem q.tail).2) := by
  match s with
  | [] => simp [tryUS] at hm
  | c :: rest =>
    unfold sequentialReplaceUnderscores
    simp only [List.length_cons]
    rw [seqReplAuxCons, hm]
    have hlen := tryUSLen hm
    simp only [List.length_cons] at hlen
    dsimp only
    rw [seqReplAuxFI (rest.length + 1) (rem.length + 1) rem q.tail (by omega)
      (by omega)]
    cases q with
    | nil => rfl
    | cons x xs => rfl

/-- `[____]` matches the underscore pattern wherever it stands. -/
theorem tryUSConcrete (b : Str) :
    tryUS ('[' :: '_' :: '_' :: '_' :: '_' :: ']' :: b) = some b := rfl

theorem usHasFalseRepl : ∀ (s : Str) (q : List Str), usHas s = false →
    sequentialReplaceUnderscores s q = (s, q) := by
  intro s
  induction s with
  | nil => intro q _; rfl
  | cons c rest ih =>
    intro q h
    rw [usHas, Bool.or_eq_false_iff] at h
    have hm : tryUS (c :: rest) = none := by
      cases hx : tryUS (c :: rest) with
      | none => rfl
      | some rem => rw [hx] at h; simp at h
    unfold sequentialReplaceUnderscores
    rw [seqReplAuxCons, hm]
    dsimp only
    have := ih q h.2
    unfold sequentialReplaceUnderscores at this
    simp only [List.length_cons]
    rw [this]

/-- The `BRACKETED_UNDERSCORES.search` guard before substitution is
redundant: substitution on a matchless text is the identity. -/
theorem guardEq (t : Str) (q : List Str) :
    (if usHas t then sequentialReplaceUnderscores t q else (t, q)) =
      sequentialReplaceUnderscores t q := by
  cases h : usHas t with
  | true => rw [if_pos rfl]
  | false => rw [if_neg (by simp), usHasFalseRepl t q h]

/-- The first pass on a single-run paragraph with no named replacements is
sequential underscore substitution with run collapsing. -/
theorem firstPassParaSingle (t : Str) (q : List Str) :
    firstPassPara [] [t] q =
      ([(sequentialReplaceUnderscores t q).1],
        (sequentialReplaceUnderscores t q).2) := by
  unfold firstPassPara
  dsimp only [List.foldl_nil]
  have hp : paraText [t] = t := by simp [paraText]
  rw [hp, guardEq]
  by_cases h : (sequentialReplaceUnderscores t q).1 = t
  · rw [if_pos h, h]
  · rw [if_neg h]

/-- A document none of whose paragraphs matches the field-label pattern is
unchanged by the signature fill pass. -/
theorem sigPassId (ans : List (Str × Str)) (paras : List Para)
    (h : ∀ p ∈ paras, sigFieldMatch (pyStrip (paraText p)) = none) :
    sigPass ans paras = paras := by
  unfold sigPass
  dsimp only
  rw [foldSigId ans paras.length _ _ ?_, assembleReplicate]
  intro i hi
  have hilt : i < paras.length := List.mem_range.mp hi
  refine sigStepId ?_
  dsimp only
  rw [List.getD_eq_getElem?_getD, List.getElem?_eq_getElem hilt]
  exact h _ (List.getElem_mem hilt)

/-- C4.  During a render, underscore-bracket occurrences are consumed left to
right across the entire document from a single queue built from the detected
underscore labels in order: the k-th occurrence receives the answer of the
k-th label (the empty string if unanswered), occurrences beyond the number of
labels receive the empty string, and no underscore-bracket pattern for a
detected slot remains.  Here: occurrence 1 (paragraph 1) gets label `k1`'s
answer `v1`; occurrence 2 (paragraph 2, continuing the same queue, not reset)
gets unanswered `k2`'s empty string; occurrence 3 is beyond the two labels and
gets the empty string. -/
theorem underscore_queue_document_order (sess : Session) (ans : List (Str × Str))
    (a1 b1 a2 b2 c2 k1 k2 v1 : Str)
    (hnk : sess.named_keys = [])
    (huk : sess.underscore_keys = [k1, k2])
    (ha1 : lookupA ans k1 = some v1)
    (ha2 : lookupA ans k2 = none)
    (hb1 : '[' ∉ a1) (hb2 : '[' ∉ b1) (hb3 : '[' ∉ a2) (hb4 : '[' ∉ b2)
    (hb5 : '[' ∉ c2)
    (hs1 : sigFieldMatch (pyStrip (a1 ++ v1 ++ b1)) = none)
    (hs2 : sigFieldMatch (pyStrip (a2 ++ b2 ++ c2)) = none) :
    replaceDocContent
      ⟨[[a1 ++ '[' :: '_' :: '_' :: '_' :: '_' :: ']' :: b1],
        [a2 ++ '[' :: '_' :: '_' :: '_' :: '_' :: ']' ::
          (b2 ++ '[' :: '_' :: '_' :: '_' :: '_' :: ']' :: c2)]], []⟩ ans sess =
      [[a1 ++ v1 ++ b1], [a2 ++ b2 ++ c2]] := by
  have hrepl : namedReplacements sess.named_keys ans = [] := by
    rw [hnk]
    rfl
  have hqueue : sess.underscore_keys.map (fun k => (lookupA ans k).getD []) =
      [v1, []] := by
    rw [huk]
    simp [ha1, ha2]
  have e1 : sequentialReplaceUnderscores
      (a1 ++ '[' :: '_' :: '_' :: '_' :: '_' :: ']' :: b1) [v1, []] =
      (a1 ++ v1 ++ b1, [[]]) := by
    rw [seqPrepend _ _ _ hb1, seqMatchStep [v1, []] (tryUSConcrete b1)]
    rw [seqNoBracket _ hb2]
    simp [List.append_assoc]
  have e2 : sequentialReplaceUnderscores
      (a2 ++ '[' :: '_' :: '_' :: '_' :: '_' :: ']' ::
        (b2 ++ '[' :: '_' :: '_' :: '_' :: '_' :: ']' :: c2)) [[]] =
      (a2 ++ b2 ++ c2, []) := by
    rw [seqPrepend _ _ _ hb3, seqMatchStep [[]] (tryUSConcrete _)]
    simp only [List.tail_cons, List.headD_cons]
    rw [seqPrepend _ _ _ hb4, seqMatchStep [] (tryUSConcrete c2)]
    simp only [List.tail_nil, List.headD_nil]
    rw [seqNoBracket _ hb5]
    simp [List.append_assoc]
  unfold replaceDocContent
  dsimp only
  rw [hrepl, hqueue]
  have hiter : iterParagraphs
      ⟨[[a1 ++ '[' :: '_' :: '_' :: '_' :: '_' :: ']' :: b1],
        [a2 ++ '[' :: '_' :: '_' :: '_' :: '_' :: ']' ::
          (b2 ++ '[' :: '_' :: '_' :: '_' :: '_' :: ']' :: c2)]], []⟩ =
      [[a1 ++ '[' :: '_' :: '_' :: '_' :: '_' :: ']' :: b1],
        [a2 ++ '[' :: '_' :: '_' :: '_' :: '_' :: ']' ::
          (b2 ++ '[' :: '_' :: '_' :: '_' :: '_' :: ']' :: c2)]] := by
    simp [iterParagraphs]
  rw [hiter]
  unfold firstPassList
  rw [firstPassParaSingle, e1]
  dsimp only
  unfold firstPassList
  rw [firstPassParaSingle, e2]
  dsimp only
  unfold firstPassList
  dsimp only
  refine sigPassId ans _ ?_
  intro p hp
  rcases List.mem_cons.mp hp with rfl | hp
  · simpa [paraText] using hs1
  · rcases List.mem_cons.mp hp with rfl | hp
    · simpa [paraText] using hs2
    · simp at hp

/-- Closed instance of `underscore_queue_document_order`. -/
theorem underscore_queue_document_order_witness :
    replaceDocContent
      ⟨[[cs "Sold by " ++ '[' :: '_' :: '_' :: '_' :: '_' :: ']' :: cs " today"],
        [cs "and " ++ '[' :: '_' :: '_' :: '_' :: '_' :: ']' ::
          (cs " then " ++ '[' :: '_' :: '_' :: '_' :: '_' :: ']' :: cs " end")]], []⟩
      [(cs "Seller", cs "Acme")]
      { original := ⟨[], []⟩, named_keys := [],
        underscore_keys := [cs "Seller", cs "Buyer"], signature_keys := [],
        all_keys := [], answers := [] } =
      [[cs "Sold by Acme today"], [cs "and  then  end"]] := by
  have h := underscore_queue_document_order
    { original := ⟨[], []⟩, named_keys := [],
      underscore_keys := [cs "Seller", cs "Buyer"], signature_keys := [],
      all_keys := [], answers := [] }
    [(cs "Seller", cs "Acme")]
    (cs "Sold by ") (cs " today") (cs "and ") (cs " then ") (cs " end")
    (cs "Seller") (cs "Buyer") (cs "Acme")
    (by decide) (by decide) (by decide) (by decide) (by decide) (by decide)
    (by decide) (by decide) (by decide) (by decide) (by decide)
  rw [h]
  decide

/-!
### C7 — named keys: both bracket spellings are replaced by the answer
-/

theorem pyReplaceAuxCons (fuel : Nat) (c : Char) (rest needle v : Str) :
    pyReplaceAux (fuel + 1) (c :: rest) needle v =
      if needle = [] then c :: rest
      else if leadsWith needle (c :: rest) then
        v ++ pyReplaceAux fuel ((c :: rest).drop needle.length) needle v
      else c :: pyReplaceAux fuel rest needle v := rfl

theorem leadsWithRefl : ∀ (needle b : Str), leadsWith needle (needle ++ b) = true := by
  intro needle
  induction needle with
  | nil => intro b; rfl
  | cons a as ih =>
    intro b
    rw [List.cons_append, leadsWith]
    simp [ih b]

theorem leadsWithHeadNe {a b : Char} {as bs : Str} (h : a ≠ b) :
    leadsWith (a :: as) (b :: bs) = false := by
  rw [leadsWith]
  simp [h]

theorem pyReplaceAuxFI : ∀ (f1 f2 : Nat) (s needle v : Str), needle ≠ [] →
    s.length < f1 → s.length < f2 →
    pyReplaceAux f1 s needle v = pyReplaceAux f2 s needle v := by
  intro f1
  induction f1 with
  | zero => intro f2 s needle v _ h1 _; omega
  | succ f1 ih =>
    intro f2 s needle v hn h1 h2
    match f2 with
    | 0 => omega
    | g + 1 =>
      match s with
      | [] => rfl
      | c :: rest =>
        rw [pyReplaceAuxCons, pyReplaceAuxCons, if_neg hn, if_neg hn]
        by_cases hl : leadsWith needle (c :: rest) = true
        · rw [if_pos hl, if_pos hl]
          have hn1 : 1 ≤ needle.length := by
            cases needle with
            | nil => exact absurd rfl hn
            | cons _ _ => simp
          have hlen : ((c :: rest).drop needle.length).length =
              rest.length + 1 - needle.length := by
            rw [List.length_drop, List.length_cons]
          simp only [List.length_cons] at h1 h2
          rw [ih g _ needle v hn (by omega) (by omega)]
        · rw [if_neg hl, if_neg hl]
          simp only [List.length_cons] at h1 h2
          rw [ih g rest needle v hn (by omega) (by omega)]

theorem pyReplaceAuxNoBracket : ∀ (fuel : Nat) (s : Str) (nt v : Str),
    s.length < fuel → '[' ∉ s →
    pyReplaceAux fuel s ('[' :: nt) v = s := by
  intro fuel
  induction fuel with
  | zero => intro s nt v h _; omega
  | succ fuel ih =>
    intro s nt v h hb
    match s with
    | [] => rfl
    | c :: rest =>
      have hc : ('[' : Char) ≠ c := fun hx => hb (hx ▸ List.mem_cons_self c rest)
      rw [pyReplaceAuxCons, if_neg (by simp), if_neg (by rw [leadsWithHeadNe hc]; simp)]
      simp only [List.length_cons] at h
      rw [ih rest nt v (by omega) (fun hx => hb (List.mem_cons_of_mem c hx))]

/-- Replacing a bracket-headed needle in bracket-free text is the identity. -/
theorem pyReplaceNoBracket (s nt v : Str) (hb : '[' ∉ s) :
    pyReplace s ('[' :: nt) v = s :=
  pyReplaceAuxNoBracket _ s nt v (by omega) hb

theorem pyReplaceAuxPrefix : ∀ (a : Str) (fuel : Nat) (b nt v : Str),
    (a ++ ('[' :: nt) ++ b).length < fuel → '[' ∉ a →
    pyReplaceAux fuel (a ++ ('[' :: nt) ++ b) ('[' :: nt) v =
      a ++ (v ++ pyReplaceAux fuel b ('[' :: nt) v) := by
  intro a
  induction a with
  | nil =>
    intro fuel b nt v h _
    match fuel with
    | 0 => exact absurd h (Nat.not_lt_zero _)
    | g + 1 =>
      rw [List.nil_append]
      have hshape : ('[' :: nt) ++ b = '[' :: (nt ++ b) := rfl
      rw [hshape, pyReplaceAuxCons, if_neg (by simp)]
      rw [if_pos (by rw [← hshape]; exact leadsWithRefl ('[' :: nt) b)]
      rw [← hshape, List.drop_left]
      rw [List.nil_append]
      simp only [List.nil_append, List.length_append, List.length_cons] at h
      rw [pyReplaceAuxFI g (g + 1) b ('[' :: nt) v (by simp) (by omega) (by omega)]
  | cons c a ih =>
    intro fuel b nt v h hb
    match fuel with
    | 0 => exact absurd h (Nat.not_lt_zero _)
    | g + 1 =>
      have hc : ('[' : Char) ≠ c := fun hx => hb (hx ▸ List.mem_cons_self c a)
      have hshape : (c :: a) ++ ('[' :: nt) ++ b = c :: (a ++ ('[' :: nt) ++ b) := by
        simp
      rw [hshape, pyReplaceAuxCons, if_neg (by simp),
        if_neg (by rw [leadsWithHeadNe hc]; simp)]
      simp only [List.length_append, List.length_cons] at h
      rw [ih g b nt v (by simp only [List.length_append, List.length_cons]; omega)
        (fun hx => hb (List.mem_cons_of_mem c hx))]
      rw [pyReplaceAuxFI g (g + 1) b ('[' :: nt) v (by simp)
        (by omega) (by omega)]
      rw [List.cons_append]

/-- A clean prefix, then a needle occurrence: the needle is replaced and
scanning continues after it. -/
theorem pyReplaceSplit (a w b nt v : Str) (ha : '[' ∉ a) (hw : w = nt ++ b) :
    pyReplace (a ++ '[' :: w) ('[' :: nt) v =
      a ++ (v ++ pyReplace b ('[' :: nt) v) := by
  subst hw
  have hshape : a ++ '[' :: (nt ++ b) = a ++ ('[' :: nt) ++ b := by simp
  rw [hshape]
  unfold pyReplace
  rw [pyReplaceAuxPrefix a _ b nt v (by omega) ha]
  rw [pyReplaceAuxFI ((a ++ ('[' :: nt) ++ b).length + 1) (b.length + 1) b
    ('[' :: nt) v (by simp) (by simp only [List.length_append, List.length_cons]; omega)
    (by omega)]

theorem pyReplaceAuxClean : ∀ (a : Str) (fuel : Nat) (s nt v : Str),
    (a ++ s).length < fuel → '[' ∉ a →
    pyReplaceAux fuel (a ++ s) ('[' :: nt) v =
      a ++ pyReplaceAux fuel s ('[' :: nt) v := by
  intro a
  induction a with
  | nil => intro fuel s nt v _ _; simp
  | cons c a ih =>
    intro fuel s nt v h hb
    match fuel with
    | 0 => exact absurd h (Nat.not_lt_zero _)
    | g + 1 =>
      have hc : ('[' : Char) ≠ c := fun hx => hb (hx ▸ List.mem_cons_self c a)
      rw [List.cons_append, pyReplaceAuxCons, if_neg (by simp),
        if_neg (by rw [leadsWithHeadNe hc]; simp)]
      simp only [List.length_append, List.length_cons] at h
      rw [ih g s nt v (by simp only [List.length_append]; omega)
        (fun hx => hb (List.mem_cons_of_mem c hx))]
      rw [pyReplaceAuxFI g (g + 1) s ('[' :: nt) v (by simp) (by omega) (by omega)]
      rw [List.cons_append]

/-- A clean prefix, then a `[` that does not start a needle occurrence, then
clean text: replacement is the identity. -/
theorem pyReplaceSkip (a w nt v : Str) (ha : '[' ∉ a) (hw : '[' ∉ w)
    (hnm : leadsWith ('[' :: nt) ('[' :: w) = false) :
    pyReplace (a ++ '[' :: w) ('[' :: nt) v = a ++ '[' :: w := by
  unfold pyReplace
  rw [pyReplaceAuxClean a _ ('[' :: w) nt v (by omega) ha]
  match hfuel : (a ++ '[' :: w).length + 1 with
  | 0 => simp at hfuel
  | g + 1 =>
    rw [pyReplaceAuxCons, if_neg (by simp), if_neg (by rw [hnm]; simp)]
    have hlen : w.length < g := by
      simp only [List.length_append, List.length_cons] at hfuel
      omega
    rw [pyReplaceAuxNoBracket g w nt v hlen hw]

theorem usHasNoBracket : ∀ s : Str, '[' ∉ s → usHas s = false := by
  intro s
  induction s with
  | nil => intro _; rfl
  | cons c rest ih =>
    intro hb
    have hc : c ≠ '[' := fun hx => hb (hx ▸ List.mem_cons_self c rest)
    rw [usHas, tryUSNotBracket rest hc, ih (fun hx => hb (List.mem_cons_of_mem c hx))]
    rfl

/-- The first pass on a single-run paragraph whose substituted text contains
no underscore pattern: named substitution with run collapsing, queue
untouched. -/
theorem firstPassParaNamed (repl : List (Str × Str)) (t : Str) (q : List Str)
    (hus : usHas (repl.foldl (fun acc e => pyReplace acc e.1 e.2) t) = false) :
    firstPassPara repl [t] q =
      ([repl.foldl (fun acc e => pyReplace acc e.1 e.2) t], q) := by
  unfold firstPassPara
  have hp : paraText [t] = t := by simp [paraText]
  rw [hp]
  dsimp only
  rw [hus]
  simp only [Bool.false_eq_true, if_false]
  by_cases h : (repl.foldl (fun acc e => pyReplace acc e.1 e.2) t) = t
  · rw [if_pos h, h]
  · rw [if_neg h]

theorem namedReplacementsOnly (nk : List Str) (ans : List (Str × Str)) (k v : Str)
    (hkv : lookupA ans k = some v)
    (hothers : ∀ k2 ∈ nk, k2 ≠ k → lookupA ans k2 = none) :
    ∀ acc : List (Str × Str),
    (acc = [] ∨ acc = [('[' :: (k ++ [']']), v), ('[' :: ' ' :: (k ++ [' ', ']']), v)]) →
    (nk.foldl (fun acc2 k2 =>
      match lookupA ans k2 with
      | some v2 => dictInsert (dictInsert acc2 ('[' :: k2 ++ [']']) v2)
          ('[' :: ' ' :: k2 ++ [' ', ']']) v2
      | none => acc2) acc) =
      (if k ∈ nk
       then [('[' :: (k ++ [']']), v), ('[' :: ' ' :: (k ++ [' ', ']']), v)]
       else acc) := by
  have hne : ¬ (k ++ [']'] = ' ' :: (k ++ [' ', ']'])) := by
    intro hcontra
    have := congrArg List.length hcontra
    simp at this
  have hne' : ¬ (' ' :: (k ++ [' ', ']']) = k ++ [']']) := fun h => hne h.symm
  have hneb : ((k ++ [']']) == (' ' :: (k ++ [' ', ']']))) = false :=
    beq_eq_false_iff_ne.mpr hne
  have hneb' : ((' ' :: (k ++ [' ', ']'])) == (k ++ [']'])) = false :=
    beq_eq_false_iff_ne.mpr hne'
  have hstep : ∀ acc : List (Str × Str),
      (acc = [] ∨ acc = [('[' :: (k ++ [']']), v), ('[' :: ' ' :: (k ++ [' ', ']']), v)]) →
      dictInsert (dictInsert acc ('[' :: k ++ [']']) v) ('[' :: ' ' :: k ++ [' ', ']']) v =
        [('[' :: (k ++ [']']), v), ('[' :: ' ' :: (k ++ [' ', ']']), v)] := by
    rintro acc (rfl | rfl)
    · simp [dictInsert, List.find?, hne, hne', hneb, hneb']
    · simp [dictInsert, List.find?, hne, hne', hneb, hneb']
  induction nk with
  | nil =>
    intro acc hacc
    rw [List.foldl_nil, if_neg (List.not_mem_nil k)]
  | cons k2 nk ih =>
    intro acc hacc
    rw [List.foldl_cons]
    by_cases hk2 : k2 = k
    · subst hk2
      rw [hkv]
      dsimp only
      have hnext := hstep acc hacc
      rw [hnext]
      rw [ih (fun x hx hne => hothers x (List.mem_cons_of_mem k2 hx) hne) _ (Or.inr rfl)]
      by_cases hmem : k2 ∈ nk
      · rw [if_pos hmem, if_pos (List.mem_cons_self k2 nk)]
      · rw [if_neg hmem, if_pos (List.mem_cons_self k2 nk)]
    · rw [hothers k2 (List.mem_cons_self k2 nk) hk2]
      dsimp only
      rw [ih (fun x hx hne => hothers x (List.mem_cons_of_mem k2 hx) hne) acc hacc]
      by_cases hmem : k ∈ nk
      · rw [if_pos hmem, if_pos (List.mem_cons_of_mem k2 hmem)]
      · rw [if_neg hmem, if_neg (by
          intro hx
          rcases List.mem_cons.mp hx with hx | hx
          · exact hk2 hx.symm
          · exact hmem hx)]

/-- C7.  For a named key with a recorded answer, both bracket spellings — the
tight `[key]` and the single-space-padded `[ key ]` — are replaced by the
answer value exactly, brackets removed, at every occurrence in a paragraph's
plain text (here one occurrence of each spelling; the side conditions rule out
overlaps with other slot syntax). -/
theorem named_both_spellings_replaced (sess : Session) (ans : List (Str × Str))
    (x y z k v : Str)
    (hk : k ∈ sess.named_keys)
    (hkv : lookupA ans k = some v)
    (hothers : ∀ k2 ∈ sess.named_keys, k2 ≠ k → lookupA ans k2 = none)
    (hx : '[' ∉ x) (hy : '[' ∉ y) (hz : '[' ∉ z) (hv : '[' ∉ v)
    (hk0 : k ≠ []) (hk1 : '[' ∉ k) (hk3 : k.headD ' ' ≠ ' ')
    (hsig : sigFieldMatch (pyStrip (x ++ v ++ y ++ v ++ z)) = none) :
    replaceDocContent
      ⟨[[x ++ ('[' :: (k ++ [']'])) ++ y ++ ('[' :: ' ' :: (k ++ [' ', ']'])) ++ z]],
        []⟩ ans sess =
      [[x ++ v ++ y ++ v ++ z]] := by
  have hrepl : namedReplacements sess.named_keys ans =
      [('[' :: (k ++ [']']), v), ('[' :: ' ' :: (k ++ [' ', ']']), v)] := by
    unfold namedReplacements
    rw [namedReplacementsOnly sess.named_keys ans k v hkv hothers [] (Or.inl rfl),
      if_pos hk]
  have e1 : pyReplace
      (x ++ ('[' :: (k ++ [']'])) ++ y ++ ('[' :: ' ' :: (k ++ [' ', ']'])) ++ z)
      ('[' :: (k ++ [']'])) v =
      x ++ (v ++ (y ++ ('[' :: (' ' :: (k ++ ' ' :: ']' :: z))))) := by
    have hT : x ++ ('[' :: (k ++ [']'])) ++ y ++ ('[' :: ' ' :: (k ++ [' ', ']'])) ++ z
        = x ++ '[' :: ((k ++ [']']) ++ (y ++ '[' :: (' ' :: (k ++ ' ' :: ']' :: z)))) := by
      simp
    rw [hT]
    rw [pyReplaceSplit x _ (y ++ '[' :: (' ' :: (k ++ ' ' :: ']' :: z)))
      (k ++ [']']) v hx rfl]
    rw [pyReplaceSkip y (' ' :: (k ++ ' ' :: ']' :: z)) (k ++ [']']) v hy
      (by
        intro hmem
        simp only [List.mem_cons, List.mem_append] at hmem
        rcases hmem with h | h | h | h | h
        · exact absurd h (by decide)
        · exact hk1 h
        · exact absurd h (by decide)
        · exact absurd h (by decide)
        · exact hz h)
      (by
        cases k with
        | nil => exact absurd rfl hk0
        | cons c k2 =>
          have hc : c ≠ ' ' := by simpa using hk3
          rw [List.cons_append, leadsWith]
          rw [leadsWithHeadNe hc]
          simp)]
  have e2 : pyReplace
      (x ++ (v ++ (y ++ ('[' :: (' ' :: (k ++ ' ' :: ']' :: z))))))
      ('[' :: ' ' :: (k ++ [' ', ']'])) v =
      (x ++ v ++ y) ++ (v ++ z) := by
    have hT2 : x ++ (v ++ (y ++ ('[' :: (' ' :: (k ++ ' ' :: ']' :: z))))) =
        (x ++ v ++ y) ++ '[' :: (' ' :: (k ++ ' ' :: ']' :: z)) := by
      simp
    rw [hT2]
    rw [pyReplaceSplit (x ++ v ++ y) _ z (' ' :: (k ++ [' ', ']'])) v
      (by
        intro hmem
        simp only [List.mem_append] at hmem
        rcases hmem with (h | h) | h
        · exact hx h
        · exact hv h
        · exact hy h)
      (by simp)]
    rw [pyReplaceNoBracket z _ v hz]
  have hfold : ∀ t : Str,
      ([('[' :: (k ++ [']']), v), ('[' :: ' ' :: (k ++ [' ', ']']), v)]).foldl
        (fun acc e => pyReplace acc e.1 e.2) t =
      pyReplace (pyReplace t ('[' :: (k ++ [']'])) v)
        ('[' :: ' ' :: (k ++ [' ', ']'])) v := fun t => rfl
  have hiter : iterParagraphs
      ⟨[[x ++ ('[' :: (k ++ [']'])) ++ y ++ ('[' :: ' ' :: (k ++ [' ', ']'])) ++ z]],
        []⟩ =
      [[x ++ ('[' :: (k ++ [']'])) ++ y ++ ('[' :: ' ' :: (k ++ [' ', ']'])) ++ z]] := by
    simp [iterParagraphs]
  unfold replaceDocContent
  dsimp only
  rw [hrepl, hiter]
  unfold firstPassList
  rw [firstPassParaNamed _ _ _ (by rw [hfold, e1, e2]; exact usHasNoBracket _ (by
    intro hmem
    simp only [List.mem_append] at hmem
    rcases hmem with ((h | h) | h) | h | h
    · exact hx h
    · exact hv h
    · exact hy h
    · exact hv h
    · exact hz h))]
  rw [hfold, e1, e2]
  dsimp only
  unfold firstPassList
  dsimp only
  have hfinal : (x ++ v ++ y) ++ (v ++ z) = x ++ v ++ y ++ v ++ z := by
    simp
  rw [hfinal]
  refine sigPassId ans _ ?_
  intro p hp
  rcases List.mem_cons.mp hp with rfl | hp
  · simpa [paraText] using hsig
  · simp at hp

/-- Closed instance of `named_both_spellings_replaced`: the spec's
`[Effective Date]` scenario, with both spellings present. -/
theorem named_both_spellings_replaced_witness :
    replaceDocContent
      ⟨[[cs "Date: " ++ ('[' :: (cs "Effective Date" ++ [']'])) ++ cs ", pad " ++
        ('[' :: ' ' :: (cs "Effective Date" ++ [' ', ']'])) ++ cs " end."]], []⟩
      [(cs "Effective Date", cs "2024-01-01")]
      { original := ⟨[], []⟩, named_keys := [cs "Effective Date"],
        underscore_keys := [], signature_keys := [],
        all_keys := [cs "Effective Date"], answers := [] } =
      [[cs "Date: 2024-01-01, pad 2024-01-01 end."]] := by
  have h := named_both_spellings_replaced
    { original := ⟨[], []⟩, named_keys := [cs "Effective Date"],
      underscore_keys := [], signature_keys := [],
      all_keys := [cs "Effective Date"], answers := [] }
    [(cs "Effective Date", cs "2024-01-01")]
    (cs "Date: ") (cs ", pad ") (cs " end.") (cs "Effective Date")
    (cs "2024-01-01")
    (by decide) (by decide) (by decide) (by decide) (by decide) (by decide)
    (by decide) (by decide) (by decide) (by decide) (by decide)
  rw [h]
  decide
